import Mathlib

/-!
Shallow embedding of the parachain inclusion engine
(`src/runtime/parachains/src/inclusion.rs`) and verification of the frozen
claims about it.

Storage maps of the pallet are modelled as association lists over `Nat` keys
with first-match lookup; inserts overwrite and removes delete every entry for
the key, which matches the unique-key discipline of the real storage maps.
External collaborators (configuration, the paras module, the scheduler lookup
functions and the opaque signature-verification primitives) are passed in as
an explicit environment record.  Side effects on the paras module
(`schedule_code_upgrade`, `note_new_head`) and deposited events are returned
as explicit logs.
-/

namespace Inclusion

abbrev ParaId := Nat
abbrev ValidatorIndex := Nat
abbrev CoreIndex := Nat
abbrev GroupIndex := Nat
abbrev BlockNumber := Nat
abbrev SessionIndex := Nat
abbrev ValidatorId := Nat
abbrev HashV := Nat
abbrev CollatorId := Nat
abbrev SignatureV := Nat
abbrev HeadData := Nat
abbrev ValidationCode := Nat
abbrev BackingVote := Nat

/-- First-match lookup in an association list, the model of storage-map `get`. -/
def mapLookup {α : Type} : List (Nat × α) → Nat → Option α
  | [], _ => none
  | (k, v) :: rest, key => if k = key then some v else mapLookup rest key

/-- Remove every binding of a key, the model of storage-map `remove` (and the
removal half of `take`). -/
def mapRemove {α : Type} : List (Nat × α) → Nat → List (Nat × α)
  | [], _ => []
  | (k, v) :: rest, key =>
    if k = key then mapRemove rest key else (k, v) :: mapRemove rest key

/-- Overwriting insert, the model of storage-map `insert`. -/
def mapInsert {α : Type} (m : List (Nat × α)) (key : Nat) (v : α) : List (Nat × α) :=
  (key, v) :: mapRemove m key

/-- `SigningContext` from primitives: parent hash plus session index. -/
structure SigningContext where
  parent_hash : HashV
  session_index : SessionIndex
deriving DecidableEq

/-- `CandidateDescriptor` with the fields the inclusion engine reads. -/
structure CandidateDescriptor where
  para_id : ParaId
  relay_parent : HashV
  collator : CollatorId
  persisted_validation_data_hash : HashV
  pov_hash : HashV
  signature : SignatureV
deriving DecidableEq

/-- `CandidateCommitments` with the fields the inclusion engine reads. -/
structure CandidateCommitments where
  head_data : HeadData
  new_validation_code : Option ValidationCode
deriving DecidableEq

/-- `CommittedCandidateReceipt`: descriptor plus full commitments. -/
structure CommittedCandidateReceipt where
  descriptor : CandidateDescriptor
  commitments : CandidateCommitments
deriving DecidableEq

/-- Modelled hash of a commitments value: an injective pairing stands in for
the opaque `commitments.hash()` primitive, which is outside `src/`. -/
def commitments_hash (c : CandidateCommitments) : Nat :=
  Nat.pair c.head_data (match c.new_validation_code with
    | none => 0
    | some code => code + 1)

/-- Plain `CandidateReceipt`: descriptor plus commitments hash. -/
structure CandidateReceipt where
  descriptor : CandidateDescriptor
  commitments_hash : Nat
deriving DecidableEq

/-- `CommittedCandidateReceipt::to_plain`. -/
def to_plain (r : CommittedCandidateReceipt) : CandidateReceipt :=
  ⟨r.descriptor, commitments_hash r.commitments⟩

/-- `CandidatePendingAvailability`: a backed candidate pending availability. -/
structure CandidatePendingAvailability where
  core : CoreIndex
  descriptor : CandidateDescriptor
  availability_votes : List Bool
  relay_parent_number : BlockNumber
  backed_in_number : BlockNumber
deriving DecidableEq

/-- `AvailabilityBitfieldRecord`: the latest accepted bitfield of a validator. -/
structure AvailabilityBitfieldRecord where
  bitfield : List Bool
  submitted_at : BlockNumber
deriving DecidableEq

/-- A signed availability bitfield as submitted by a validator. -/
structure SignedAvailabilityBitfield where
  payload : List Bool
  validator_index : ValidatorIndex
  signature : SignatureV
deriving DecidableEq

/-- A backed candidate: committed receipt plus its backing validity votes.
The votes are abstract tokens checked by the opaque verification oracle. -/
structure BackedCandidate where
  candidate : CommittedCandidateReceipt
  validity_votes : List BackingVote
deriving DecidableEq

/-- One scheduler `CoreAssignment`.  The scheduler type lives outside `src/`;
per the spec it carries shard id, core id, validator group id and an optional
required-collator constraint, the latter exposed by the accessor
`required_collator()` which is modelled as a plain field here. -/
structure CoreAssignment where
  core : CoreIndex
  para_id : ParaId
  group_idx : GroupIndex
  required_collator : Option CollatorId
deriving DecidableEq

/-- The error enum of the pallet (`decl_error`). -/
inductive Error
  | WrongBitfieldSize
  | BitfieldDuplicateOrUnordered
  | ValidatorIndexOutOfBounds
  | InvalidBitfieldSignature
  | UnscheduledCandidate
  | CandidateScheduledBeforeParaFree
  | WrongCollator
  | ScheduledOutOfOrder
  | PrematureCodeUpgrade
  | CandidateNotInParentContext
  | UnoccupiedBitInBitfield
  | InvalidGroupIndex
  | InsufficientBacking
  | InvalidBacking
  | NotCollatorSigned
  | ValidationDataHashMismatch
  | InternalError
deriving DecidableEq

/-- Deposited events of the pallet (`decl_event`). -/
inductive Event
  | CandidateBacked (receipt : CandidateReceipt) (head : HeadData)
  | CandidateIncluded (receipt : CandidateReceipt) (head : HeadData)
  | CandidateTimedOut (receipt : CandidateReceipt) (head : HeadData)
deriving DecidableEq

/-- Calls the engine makes into the paras module (the shard-state manager). -/
inductive ParasAction
  | ScheduleCodeUpgrade (para : ParaId) (code : ValidationCode) (activate_at : BlockNumber)
  | NoteNewHead (para : ParaId) (head : HeadData) (number : BlockNumber)
deriving DecidableEq

/-- The storage owned by the pallet (`decl_storage`). -/
structure State where
  availability_bitfields : List (ValidatorIndex × AvailabilityBitfieldRecord)
  pending_availability : List (ParaId × CandidatePendingAvailability)
  pending_commitments : List (ParaId × CandidateCommitments)
  validators : List ValidatorId
  current_session_index : SessionIndex
deriving DecidableEq

/-- External collaborators: configuration values, the frame-system context,
the paras module reads, and the opaque signature-verification primitives.
`make_persisted_validation_data_hash` models
`make_persisted_validation_data(para).map(its hash)`. -/
structure Env where
  parachains : List ParaId
  parathread_cores : Nat
  validation_upgrade_delay : BlockNumber
  validation_upgrade_frequency : BlockNumber
  parent_hash : HashV
  now : BlockNumber
  check_bitfield_signature : SigningContext → ValidatorId → SignedAvailabilityBitfield → Bool
  check_collator_signature : CandidateDescriptor → Bool
  last_code_upgrade : ParaId → Option BlockNumber
  make_persisted_validation_data_hash : ParaId → Option HashV
  verify_backing_signature : SigningContext → List ValidatorId → BackingVote → Bool

instance {ε α : Type} [DecidableEq ε] [DecidableEq α] : DecidableEq (Except ε α) :=
  fun x y =>
    match x, y with
    | .error a, .error b =>
        if h : a = b then isTrue (by rw [h]) else isFalse (by simp [h])
    | .ok a, .ok b =>
        if h : a = b then isTrue (by rw [h]) else isFalse (by simp [h])
    | .error _, .ok _ => isFalse (by simp)
    | .ok _, .error _ => isFalse (by simp)

/-- The outcome of a dispatchable: the result value, the post-state, the
deposited events and the calls made into the paras module.  On the error
paths the source performs no storage writes, so the state is the input state. -/
structure Outcome where
  result : Except Error (List CoreIndex)
  state : State
  events : List Event
  actions : List ParasAction
deriving DecidableEq

/-- `availability_threshold` at the bottom of the source file. -/
def availability_threshold (n_validators : Nat) : Nat :=
  n_validators - (n_validators * 1) / 3

/-- `BitVec::count_ones` on the vote bitmap. -/
def count_ones (bits : List Bool) : Nat := bits.count true

/-- `n_bits`: number of availability cores, parachains plus parathread cores. -/
def n_bits_of (env : Env) : Nat := env.parachains.length + env.parathread_cores

/-- The signing context built from the parent hash and current session. -/
def signing_context_of (env : Env) (st : State) : SigningContext :=
  ⟨env.parent_hash, st.current_session_index⟩

/-- One slot of `assigned_paras_record`: the core-to-para lookup result paired
with the pending-availability record of that para, when assigned. -/
abbrev RecordO := Option (ParaId × Option CandidatePendingAvailability)

/-- `assigned_paras_record`: per core index, the assigned para and its
pending-availability entry. -/
def assigned_paras_record (core_lookup : CoreIndex → Option ParaId) (st : State)
    (n_bits : Nat) : List RecordO :=
  (List.range n_bits).map
    (fun i => (core_lookup i).map (fun p => (p, mapLookup st.pending_availability p)))

/-- `occupied_bitmask`: one bit per core, set when the core is occupied. -/
def occupied_bitmask (records : List RecordO) : List Bool :=
  records.map (fun r => match r with
    | some (_, some _) => true
    | _ => false)

/-- The sanity-check loop of `process_bitfields`: per bitfield, in order,
check size, strict ascension of validator indices, index bounds, the occupied
mask, and the signature; the first failure is returned. -/
def check_bitfields (env : Env) (sc : SigningContext) (validators : List ValidatorId)
    (n_bits : Nat) (occupied : List Bool) :
    Option ValidatorIndex → List SignedAvailabilityBitfield → Option Error
  | _, [] => none
  | last, bf :: rest =>
    if bf.payload.length ≠ n_bits then some Error.WrongBitfieldSize
    else if ! last.all (fun l => decide (l < bf.validator_index)) then
      some Error.BitfieldDuplicateOrUnordered
    else if ! decide (bf.validator_index < validators.length) then
      some Error.ValidatorIndexOutOfBounds
    else if List.zipWith and occupied bf.payload ≠ bf.payload then
      some Error.UnoccupiedBitInBitfield
    else if ! env.check_bitfield_signature sc (validators.getD bf.validator_index 0) bf then
      some Error.InvalidBitfieldSignature
    else check_bitfields env sc validators n_bits occupied (some bf.validator_index) rest

/-- Set the availability vote of one validator in one record.  When the slot
is unassigned or unoccupied nothing happens: the source only reaches this
code for occupied slots (guarded by the occupied-mask check), and an
out-of-range vote index degrades to the release-build skip of the
debug-assertions branch (`List.set` out of range is the identity). -/
def set_avail_bit (val_idx : Nat) (r : RecordO) : RecordO :=
  match r with
  | some (p, some pending) =>
      some (p, some { pending with
        availability_votes := pending.availability_votes.set val_idx true })
  | other => other

/-- Fold the set bits of one payload into the per-core records, by position. -/
def fold_one (val_idx : Nat) : List Bool → List RecordO → List RecordO
  | _, [] => []
  | [], records => records
  | b :: bs, r :: rs =>
      (if b then set_avail_bit val_idx r else r) :: fold_one val_idx bs rs

/-- The mutation loop of `process_bitfields`: fold every bitfield into the
records and store each validator submission as its latest bitfield record. -/
def fold_bitfields (now : BlockNumber) :
    List RecordO → List (ValidatorIndex × AvailabilityBitfieldRecord) →
    List SignedAvailabilityBitfield →
    List RecordO × List (ValidatorIndex × AvailabilityBitfieldRecord)
  | records, abf, [] => (records, abf)
  | records, abf, bf :: rest =>
      fold_bitfields now (fold_one bf.validator_index bf.payload records)
        (mapInsert abf bf.validator_index ⟨bf.payload, now⟩) rest

/-- Flatten the records to the occupied ones, as the availability sweep does
with its two `filter_map` steps. -/
def occupied_records (records : List RecordO) :
    List (ParaId × CandidatePendingAvailability) :=
  records.filterMap (fun r => match r with
    | some (p, some pending) => some (p, pending)
    | _ => none)

/-- `enact_candidate`: schedule a code upgrade when the commitments carry new
code, push the new head, and emit the included event.  Returns the event and
paras-module call logs. -/
def enact_candidate (env : Env) (relay_parent_number : BlockNumber)
    (receipt : CommittedCandidateReceipt) : List Event × List ParasAction :=
  let upgrade := match receipt.commitments.new_validation_code with
    | some code => [ParasAction.ScheduleCodeUpgrade receipt.descriptor.para_id code
        (relay_parent_number + env.validation_upgrade_delay)]
    | none => []
  ([Event.CandidateIncluded (to_plain receipt) receipt.commitments.head_data],
   upgrade ++ [ParasAction.NoteNewHead receipt.descriptor.para_id
      receipt.commitments.head_data relay_parent_number])

/-- Accumulator of the availability sweep at the end of `process_bitfields`. -/
structure SweepOut where
  pending : List (ParaId × CandidatePendingAvailability)
  commitments : List (ParaId × CandidateCommitments)
  freed : List CoreIndex
  events : List Event
  actions : List ParasAction
deriving DecidableEq

/-- The availability sweep: per occupied record, if the vote count reaches the
threshold, remove the pending entry and take the commitments; when the
commitments are missing (storage desync) skip enactment, otherwise enact and
free the core.  Below the threshold the folded record is written back. -/
def sweep (env : Env) (threshold : Nat) :
    SweepOut → List (ParaId × CandidatePendingAvailability) → SweepOut
  | acc, [] => acc
  | acc, (p, pending) :: rest =>
    if threshold ≤ count_ones pending.availability_votes then
      let pending_map := mapRemove acc.pending p
      match mapLookup acc.commitments p with
      | none => sweep env threshold { acc with pending := pending_map } rest
      | some c =>
        let enacted := enact_candidate env pending.relay_parent_number
          ⟨pending.descriptor, c⟩
        sweep env threshold
          { pending := pending_map,
            commitments := mapRemove acc.commitments p,
            freed := acc.freed ++ [pending.core],
            events := acc.events ++ enacted.1,
            actions := acc.actions ++ enacted.2 } rest
    else
      sweep env threshold { acc with pending := mapInsert acc.pending p pending } rest

/-- The validation phase of `process_bitfields` as one named stage. -/
def bitfields_checks (env : Env) (core_lookup : CoreIndex → Option ParaId)
    (signed_bitfields : List SignedAvailabilityBitfield) (st : State) : Option Error :=
  check_bitfields env (signing_context_of env st) st.validators (n_bits_of env)
    (occupied_bitmask (assigned_paras_record core_lookup st (n_bits_of env)))
    none signed_bitfields

/-- The occupied records after folding all bitfields, as one named stage. -/
def folded_records (env : Env) (core_lookup : CoreIndex → Option ParaId)
    (signed_bitfields : List SignedAvailabilityBitfield) (st : State) :
    List (ParaId × CandidatePendingAvailability) :=
  occupied_records
    (fold_bitfields env.now (assigned_paras_record core_lookup st (n_bits_of env))
      st.availability_bitfields signed_bitfields).1

/-- `process_bitfields`: validate the batch, fold the bitfields, then run the
availability sweep.  Any validation failure aborts before any write. -/
def process_bitfields (env : Env) (core_lookup : CoreIndex → Option ParaId)
    (signed_bitfields : List SignedAvailabilityBitfield) (st : State) : Outcome :=
  match bitfields_checks env core_lookup signed_bitfields st with
  | some e => ⟨.error e, st, [], []⟩
  | none =>
    let folded := fold_bitfields env.now
      (assigned_paras_record core_lookup st (n_bits_of env))
      st.availability_bitfields signed_bitfields
    let out := sweep env (availability_threshold st.validators.length)
      ⟨st.pending_availability, st.pending_commitments, [], [], []⟩
      (occupied_records folded.1)
    ⟨.ok out.freed,
     { st with
        availability_bitfields := folded.2,
        pending_availability := out.pending,
        pending_commitments := out.commitments },
     out.events, out.actions⟩

/-- Modelled from the spec: `primitives::v1::check_candidate_backing` is not
under `src/`.  Per the spec (section 4.3 backing), each attestation in the
backing set is verified against the group and signing context; the count of
valid signatures is returned, and any invalid signature is an error. -/
def check_candidate_backing (verify : BackingVote → Bool)
    (votes : List BackingVote) : Except Unit Nat :=
  if votes.all verify then Except.ok (votes.countP verify) else Except.error ()

/-- The premature-code-upgrade guard on one candidate. -/
def valid_upgrade_attempt (env : Env) (relay_parent_number : BlockNumber)
    (cand : BackedCandidate) : Bool :=
  cand.candidate.commitments.new_validation_code.isNone ||
    (match env.last_code_upgrade cand.candidate.descriptor.para_id with
     | none => true
     | some last =>
        decide (last ≤ relay_parent_number) &&
          decide (env.validation_upgrade_frequency ≤ relay_parent_number - last))

/-- Result of scanning the scheduled suffix for the assignment of one
candidate: an error, the batch-wide silent empty return triggered by a
missing persisted-validation-data value, or the matched core together with
the remaining suffix and the updated last visited core. -/
inductive FindRes
  | err (e : Error)
  | emptyEarly
  | found (core : CoreIndex) (rest : List CoreAssignment) (last : Option CoreIndex)
deriving DecidableEq

/-- The inner loop of `process_candidates`: walk the scheduled suffix, check
each visited assignment is in strictly ascending core order, and at the first
assignment of the candidate para run the per-candidate checks: required
collator, persisted-validation-data hash (whose absence returns the whole
call empty), para freeness, group lookup and backing quorum. -/
def find_assignment (env : Env) (st : State) (sc : SigningContext)
    (group_validators : GroupIndex → Option (List ValidatorIndex))
    (cand : BackedCandidate) :
    Option CoreIndex → List CoreAssignment → FindRes
  | _, [] => .err Error.UnscheduledCandidate
  | last, a :: rest =>
    if ! last.all (fun c => decide (c < a.core)) then .err Error.ScheduledOutOfOrder
    else if cand.candidate.descriptor.para_id = a.para_id then
      if ! a.required_collator.all (fun rc => decide (rc = cand.candidate.descriptor.collator)) then
        .err Error.WrongCollator
      else
        match env.make_persisted_validation_data_hash a.para_id with
        | none => .emptyEarly
        | some expected =>
          if expected ≠ cand.candidate.descriptor.persisted_validation_data_hash then
            .err Error.ValidationDataHashMismatch
          else if ! ((mapLookup st.pending_availability a.para_id).isNone &&
                     (mapLookup st.pending_commitments a.para_id).isNone) then
            .err Error.CandidateScheduledBeforeParaFree
          else
            match group_validators a.group_idx with
            | none => .err Error.InvalidGroupIndex
            | some group_vals =>
              match check_candidate_backing
                  (env.verify_backing_signature sc
                    (group_vals.map (fun i => st.validators.getD i 0)))
                  cand.validity_votes with
              | Except.error _ => .err Error.InvalidBacking
              | Except.ok amount =>
                if ! decide (group_vals.length < amount * 2) then
                  .err Error.InsufficientBacking
                else .found a.core rest (some a.core)
    else find_assignment env st sc group_validators cand (some a.core) rest

/-- Result of the validation phase of `process_candidates`. -/
inductive CandCheck
  | err (e : Error)
  | emptyEarly
  | ok (cores : List CoreIndex)
deriving DecidableEq

/-- The ascending-core check over the scheduled remainder. -/
def check_remaining : Option CoreIndex → List CoreAssignment → Option Error
  | _, [] => none
  | last, a :: rest =>
    if ! last.all (fun c => decide (c < a.core)) then some Error.ScheduledOutOfOrder
    else check_remaining (some a.core) rest

/-- The validation phase of `process_candidates`: per candidate, in order,
check the parent context, the code-upgrade restriction and the collator
signature, then match it against the scheduled suffix; finally check the
untraversed remainder of the schedule. -/
def check_candidates (env : Env) (st : State) (sc : SigningContext)
    (group_validators : GroupIndex → Option (List ValidatorIndex))
    (relay_parent_number : BlockNumber) :
    List BackedCandidate → List CoreAssignment → Option CoreIndex →
    List CoreIndex → CandCheck
  | [], remaining, last, acc =>
    match check_remaining last remaining with
    | some e => .err e
    | none => .ok acc
  | cand :: cs, suffix, last, acc =>
    if cand.candidate.descriptor.relay_parent ≠ env.parent_hash then
      .err Error.CandidateNotInParentContext
    else if ! valid_upgrade_attempt env relay_parent_number cand then
      .err Error.PrematureCodeUpgrade
    else if ! env.check_collator_signature cand.candidate.descriptor then
      .err Error.NotCollatorSigned
    else
      match find_assignment env st sc group_validators cand last suffix with
      | .err e => .err e
      | .emptyEarly => .emptyEarly
      | .found core rest last' =>
          check_candidates env st sc group_validators relay_parent_number
            cs rest last' (acc ++ [core])

/-- The mutation phase of `process_candidates`: per accepted candidate, emit
the backed event and insert the pending-availability entry (zeroed votes,
relay-parent and backed-in numbers) together with its commitments. -/
def admit_candidates (n_validators : Nat) (relay_parent_number now : BlockNumber) :
    State → List Event → List (BackedCandidate × CoreIndex) → State × List Event
  | st, evs, [] => (st, evs)
  | st, evs, (cand, core) :: rest =>
    let para := cand.candidate.descriptor.para_id
    let st' := { st with
      pending_availability := mapInsert st.pending_availability para
        ⟨core, cand.candidate.descriptor, List.replicate n_validators false,
         relay_parent_number, now⟩,
      pending_commitments := mapInsert st.pending_commitments para
        cand.candidate.commitments }
    admit_candidates n_validators relay_parent_number now st'
      (evs ++ [Event.CandidateBacked (to_plain cand.candidate)
        cand.candidate.commitments.head_data]) rest

/-- `process_candidates`: require no more candidates than scheduled cores,
short-circuit an empty schedule, validate everything, then write storage. -/
def process_candidates (env : Env)
    (group_validators : GroupIndex → Option (List ValidatorIndex))
    (candidates : List BackedCandidate) (scheduled : List CoreAssignment)
    (st : State) : Outcome :=
  if scheduled.length < candidates.length then
    ⟨.error Error.UnscheduledCandidate, st, [], []⟩
  else if scheduled.isEmpty then ⟨.ok [], st, [], []⟩
  else
    match check_candidates env st (signing_context_of env st) group_validators
        (env.now - 1) candidates scheduled none [] with
    | .err e => ⟨.error e, st, [], []⟩
    | .emptyEarly => ⟨.ok [], st, [], []⟩
    | .ok cores =>
      let admitted := admit_candidates st.validators.length (env.now - 1) env.now
        st [] (candidates.zip cores)
      ⟨.ok cores, admitted.1, admitted.2, []⟩

/-- One cleanup step of `collect_pending`: take both halves of the pending
pair of a para and emit the timed-out event when both were present. -/
def collect_step (acc : State × List Event) (para : ParaId) : State × List Event :=
  let pending := mapLookup acc.1.pending_availability para
  let comm := mapLookup acc.1.pending_commitments para
  let s' := { acc.1 with
    pending_availability := mapRemove acc.1.pending_availability para,
    pending_commitments := mapRemove acc.1.pending_commitments para }
  match pending, comm with
  | some pd, some c =>
      (s', acc.2 ++ [Event.CandidateTimedOut ⟨pd.descriptor, commitments_hash c⟩
        c.head_data])
  | _, _ => (s', acc.2)

/-- `collect_pending`: clean up every pending entry the predicate flags,
taking both maps and emitting a timed-out event when both halves exist. -/
def collect_pending (pred : CoreIndex → BlockNumber → Bool) (st : State) :
    List CoreIndex × State × List Event :=
  let cleaned := st.pending_availability.filter
    (fun pr => pred pr.2.core pr.2.backed_in_number)
  let swept := (cleaned.map Prod.fst).foldl collect_step (st, [])
  (cleaned.map (fun pr => pr.2.core), swept.1, swept.2)

/-- `force_enact`: take both halves of the pending pair and, when both exist,
enact the candidate immediately. -/
def force_enact (env : Env) (para : ParaId) (st : State) :
    State × List Event × List ParasAction :=
  let pending := mapLookup st.pending_availability para
  let comm := mapLookup st.pending_commitments para
  let st' := { st with
    pending_availability := mapRemove st.pending_availability para,
    pending_commitments := mapRemove st.pending_commitments para }
  match pending, comm with
  | some pd, some c =>
      let enacted := enact_candidate env pd.relay_parent_number ⟨pd.descriptor, c⟩
      (st', enacted.1, enacted.2)
  | _, _ => (st', [], [])

/-- `candidate_pending_availability`: the committed receipt pending for a
para, read-only, present only when both storage halves are present. -/
def candidate_pending_availability (st : State) (para : ParaId) :
    Option CommittedCandidateReceipt :=
  ((mapLookup st.pending_availability para).map
      (fun p => p.descriptor)).bind
    (fun d => (mapLookup st.pending_commitments para).map
      (fun c => CommittedCandidateReceipt.mk d c))

/-- A session-change notification as consumed by the session hook. -/
structure SessionChangeNotification where
  validators : List ValidatorId
  session_index : SessionIndex
deriving DecidableEq

/-- `initializer_on_new_session`: drain the three maps and replace the
validator set and session index. -/
def initializer_on_new_session (n : SessionChangeNotification) (_st : State) : State :=
  { availability_bitfields := [],
    pending_availability := [],
    pending_commitments := [],
    validators := n.validators,
    current_session_index := n.session_index }

/-! ### Association-map lemmas -/

theorem mapLookup_remove_self {α : Type} (m : List (Nat × α)) (k : Nat) :
    mapLookup (mapRemove m k) k = none := by
  induction m with
  | nil => rfl
  | cons hd tl ih =>
    obtain ⟨k', v⟩ := hd
    by_cases h : k' = k
    · simp [mapRemove, h, ih]
    · simp [mapRemove, mapLookup, h, ih]

theorem mapLookup_remove_ne {α : Type} (m : List (Nat × α)) {k q : Nat} (h : k ≠ q) :
    mapLookup (mapRemove m k) q = mapLookup m q := by
  induction m with
  | nil => rfl
  | cons hd tl ih =>
    obtain ⟨k', v⟩ := hd
    by_cases hk : k' = k
    · subst hk
      simp [mapRemove, mapLookup, h, ih]
    · by_cases hq : k' = q
      · subst hq
        simp [mapRemove, mapLookup, hk]
      · simp [mapRemove, mapLookup, hk, hq, ih]

theorem mapLookup_insert_self {α : Type} (m : List (Nat × α)) (k : Nat) (v : α) :
    mapLookup (mapInsert m k v) k = some v := by
  simp [mapInsert, mapLookup]

theorem mapLookup_insert_ne {α : Type} (m : List (Nat × α)) {k q : Nat} (v : α)
    (h : k ≠ q) : mapLookup (mapInsert m k v) q = mapLookup m q := by
  simp [mapInsert, mapLookup, h, mapLookup_remove_ne m h]

theorem mapRemove_of_lookup_none {α : Type} (m : List (Nat × α)) (k : Nat)
    (h : mapLookup m k = none) : mapRemove m k = m := by
  induction m with
  | nil => rfl
  | cons hd tl ih =>
    obtain ⟨k', v⟩ := hd
    by_cases hk : k' = k
    · simp [mapLookup, hk] at h
    · simp [mapLookup, hk] at h
      simp [mapRemove, hk, ih h]

/-! ### Structure of the folded records -/

theorem mem_fold_one {val_idx : Nat} :
    ∀ (bs : List Bool) (records : List RecordO) (r : RecordO),
      r ∈ fold_one val_idx bs records →
      ∃ r₀ ∈ records, r = set_avail_bit val_idx r₀ ∨ r = r₀ := by
  intro bs
  induction bs with
  | nil =>
    intro records r hr
    cases records with
    | nil => simp [fold_one] at hr
    | cons hd tl => exact ⟨r, by simpa [fold_one] using hr, Or.inr rfl⟩
  | cons b bs ih =>
    intro records r hr
    cases records with
    | nil => simp [fold_one] at hr
    | cons hd tl =>
      simp only [fold_one, List.mem_cons] at hr
      rcases hr with h | h
      · refine ⟨hd, List.mem_cons_self _ _, ?_⟩
        by_cases hb : b
        · simp [hb] at h
          exact Or.inl h
        · simp [hb] at h
          exact Or.inr h
      · obtain ⟨r₀, hr₀, hc⟩ := ih tl r h
        exact ⟨r₀, List.mem_cons_of_mem _ hr₀, hc⟩

theorem set_avail_bit_occupied {val_idx : Nat} {r₀ : RecordO}
    {p : ParaId} {pd : CandidatePendingAvailability}
    (h : set_avail_bit val_idx r₀ = some (p, some pd)) :
    ∃ pd₀, r₀ = some (p, some pd₀) := by
  match r₀ with
  | none => simp [set_avail_bit] at h
  | some (q, none) =>
    simp [set_avail_bit] at h
  | some (q, some pd₀) =>
    simp [set_avail_bit] at h
    exact ⟨pd₀, by simp [h.1]⟩

theorem mem_fold_bitfields_occupied {now : BlockNumber} :
    ∀ (bfs : List SignedAvailabilityBitfield) (records : List RecordO)
      (abf : List (ValidatorIndex × AvailabilityBitfieldRecord))
      (p : ParaId) (pd : CandidatePendingAvailability),
      (p, pd) ∈ occupied_records (fold_bitfields now records abf bfs).1 →
      ∃ pd₀, some (p, some pd₀) ∈ records := by
  intro bfs
  induction bfs with
  | nil =>
    intro records abf p pd h
    simp only [fold_bitfields] at h
    simp only [occupied_records, List.mem_filterMap] at h
    obtain ⟨r, hr, he⟩ := h
    match r, he with
    | some (q, some pd'), he =>
      simp at he
      exact ⟨pd', by rw [he.1] at hr; exact hr⟩
  | cons bf rest ih =>
    intro records abf p pd h
    simp only [fold_bitfields] at h
    obtain ⟨pd₁, h₁⟩ := ih _ _ p pd h
    obtain ⟨r₀, hr₀, hc⟩ := mem_fold_one _ _ _ h₁
    rcases hc with hc | hc
    · obtain ⟨pd₀, h₀⟩ := set_avail_bit_occupied hc.symm
      exact ⟨pd₀, h₀ ▸ hr₀⟩
    · exact ⟨pd₁, hc ▸ hr₀⟩

theorem mem_assigned_paras_record {core_lookup : CoreIndex → Option ParaId}
    {st : State} {n : Nat} {p : ParaId} {pd : CandidatePendingAvailability}
    (h : some (p, some pd) ∈ assigned_paras_record core_lookup st n) :
    mapLookup st.pending_availability p = some pd := by
  simp only [assigned_paras_record, List.mem_map] at h
  obtain ⟨i, _, he⟩ := h
  match hl : core_lookup i with
  | none => rw [hl] at he; simp at he
  | some q =>
    rw [hl] at he
    simp at he
    rw [← he.1, he.2]

/-! ### Characterization of the availability sweep -/

/-- Contribution of one occupied record to the freed-core list: its core,
exactly when the vote count reaches the threshold and the commitments entry
is present in the commitments map the sweep started from. -/
def freed_entry (th : Nat) (C : List (ParaId × CandidateCommitments))
    (r : ParaId × CandidatePendingAvailability) : Option CoreIndex :=
  match mapLookup C r.1 with
  | some _ => if th ≤ count_ones r.2.availability_votes then some r.2.core else none
  | none => none

/-- Contribution of one occupied record to the event log. -/
def events_entry (env : Env) (th : Nat) (C : List (ParaId × CandidateCommitments))
    (r : ParaId × CandidatePendingAvailability) : Option (List Event) :=
  match mapLookup C r.1 with
  | some c =>
    if th ≤ count_ones r.2.availability_votes then
      some (enact_candidate env r.2.relay_parent_number ⟨r.2.descriptor, c⟩).1
    else none
  | none => none

/-- Contribution of one occupied record to the paras-module call log. -/
def actions_entry (env : Env) (th : Nat) (C : List (ParaId × CandidateCommitments))
    (r : ParaId × CandidatePendingAvailability) : Option (List ParasAction) :=
  match mapLookup C r.1 with
  | some c =>
    if th ≤ count_ones r.2.availability_votes then
      some (enact_candidate env r.2.relay_parent_number ⟨r.2.descriptor, c⟩).2
    else none
  | none => none

/-- The freed cores of the sweep, as a formula over the starting maps. -/
def sweep_freed (th : Nat) (C : List (ParaId × CandidateCommitments))
    (records : List (ParaId × CandidatePendingAvailability)) : List CoreIndex :=
  records.filterMap (freed_entry th C)

/-- The events of the sweep, as a formula over the starting maps. -/
def sweep_events (env : Env) (th : Nat) (C : List (ParaId × CandidateCommitments))
    (records : List (ParaId × CandidatePendingAvailability)) : List Event :=
  (records.filterMap (events_entry env th C)).flatten

/-- The paras-module calls of the sweep, as a formula over the starting maps. -/
def sweep_actions (env : Env) (th : Nat) (C : List (ParaId × CandidateCommitments))
    (records : List (ParaId × CandidatePendingAvailability)) : List ParasAction :=
  (records.filterMap (actions_entry env th C)).flatten

theorem filterMap_eq_of_mem {α β : Type} {l : List α} {f g : α → Option β}
    (h : ∀ a ∈ l, f a = g a) : l.filterMap f = l.filterMap g := by
  induction l with
  | nil => rfl
  | cons hd tl ih =>
    simp only [List.filterMap_cons, h hd (List.mem_cons_self hd tl)]
    have := ih (fun a ha => h a (List.mem_cons_of_mem hd ha))
    cases g hd <;> simp [this]

theorem ne_fst_of_not_mem_map {p : ParaId}
    {rest : List (ParaId × CandidatePendingAvailability)}
    {r : ParaId × CandidatePendingAvailability}
    (hr : r ∈ rest) (hp : p ∉ rest.map Prod.fst) : p ≠ r.1 :=
  fun he => hp (he ▸ List.mem_map_of_mem Prod.fst hr)

theorem below_entries_none {env : Env} {th : Nat}
    {C : List (ParaId × CandidateCommitments)}
    {r : ParaId × CandidatePendingAvailability}
    (h : ¬ th ≤ count_ones r.2.availability_votes) :
    freed_entry th C r = none ∧ events_entry env th C r = none ∧
      actions_entry env th C r = none := by
  unfold freed_entry events_entry actions_entry
  cases mapLookup C r.1 <;> simp [h]

/-- Full characterization of the availability sweep over records with
pairwise distinct para ids: the freed cores, events and paras-module calls
are given pointwise against the starting commitments map; every record para
ends with no pending entry (at threshold) or the folded record (below), with
the commitments taken exactly at threshold; every other key is untouched. -/
theorem sweep_spec (env : Env) (th : Nat) :
    ∀ (records : List (ParaId × CandidatePendingAvailability))
      (P : List (ParaId × CandidatePendingAvailability))
      (C : List (ParaId × CandidateCommitments))
      (f0 : List CoreIndex) (e0 : List Event) (a0 : List ParasAction),
      (records.map Prod.fst).Nodup →
      (sweep env th ⟨P, C, f0, e0, a0⟩ records).freed
          = f0 ++ sweep_freed th C records ∧
      (sweep env th ⟨P, C, f0, e0, a0⟩ records).events
          = e0 ++ sweep_events env th C records ∧
      (sweep env th ⟨P, C, f0, e0, a0⟩ records).actions
          = a0 ++ sweep_actions env th C records ∧
      (∀ r ∈ records,
        mapLookup (sweep env th ⟨P, C, f0, e0, a0⟩ records).pending r.1
            = (if th ≤ count_ones r.2.availability_votes then none else some r.2) ∧
        mapLookup (sweep env th ⟨P, C, f0, e0, a0⟩ records).commitments r.1
            = (if th ≤ count_ones r.2.availability_votes then none
               else mapLookup C r.1)) ∧
      (∀ q, q ∉ records.map Prod.fst →
        mapLookup (sweep env th ⟨P, C, f0, e0, a0⟩ records).pending q = mapLookup P q ∧
        mapLookup (sweep env th ⟨P, C, f0, e0, a0⟩ records).commitments q
            = mapLookup C q) := by
  intro records
  induction records with
  | nil =>
    intro P C f0 e0 a0 _
    simp [sweep, sweep_freed, sweep_events, sweep_actions]
  | cons hd rest ih =>
    intro P C f0 e0 a0 hnd
    obtain ⟨p, pd⟩ := hd
    simp only [List.map_cons, List.nodup_cons] at hnd
    obtain ⟨hp, hrest⟩ := hnd
    by_cases hth : th ≤ count_ones pd.availability_votes
    · match hC : mapLookup C p with
      | some c =>
        have hstep : sweep env th ⟨P, C, f0, e0, a0⟩ ((p, pd) :: rest)
            = sweep env th
                ⟨mapRemove P p, mapRemove C p, f0 ++ [pd.core],
                 e0 ++ (enact_candidate env pd.relay_parent_number ⟨pd.descriptor, c⟩).1,
                 a0 ++ (enact_candidate env pd.relay_parent_number ⟨pd.descriptor, c⟩).2⟩
                rest := by
          simp [sweep, hth, hC]
        obtain ⟨ihf, ihe, iha, ihin, ihout⟩ :=
          ih (mapRemove P p) (mapRemove C p) (f0 ++ [pd.core])
            (e0 ++ (enact_candidate env pd.relay_parent_number ⟨pd.descriptor, c⟩).1)
            (a0 ++ (enact_candidate env pd.relay_parent_number ⟨pd.descriptor, c⟩).2)
            hrest
        have hcf : sweep_freed th (mapRemove C p) rest = sweep_freed th C rest :=
          filterMap_eq_of_mem (fun r hr => by
            simp [freed_entry, mapLookup_remove_ne C (ne_fst_of_not_mem_map hr hp)])
        have hce' : rest.filterMap (events_entry env th (mapRemove C p))
            = rest.filterMap (events_entry env th C) :=
          filterMap_eq_of_mem (fun r hr => by
            simp [events_entry, mapLookup_remove_ne C (ne_fst_of_not_mem_map hr hp)])
        have hce : sweep_events env th (mapRemove C p) rest = sweep_events env th C rest := by
          unfold sweep_events
          rw [hce']
        have hca' : rest.filterMap (actions_entry env th (mapRemove C p))
            = rest.filterMap (actions_entry env th C) :=
          filterMap_eq_of_mem (fun r hr => by
            simp [actions_entry, mapLookup_remove_ne C (ne_fst_of_not_mem_map hr hp)])
        have hca : sweep_actions env th (mapRemove C p) rest
            = sweep_actions env th C rest := by
          unfold sweep_actions
          rw [hca']
        refine ⟨?_, ?_, ?_, ?_, ?_⟩
        · rw [hstep, ihf, hcf]
          simp [sweep_freed, List.filterMap_cons, freed_entry, hC, hth]
        · rw [hstep, ihe, hce]
          simp [sweep_events, List.filterMap_cons, events_entry, hC, hth]
        · rw [hstep, iha, hca]
          simp [sweep_actions, List.filterMap_cons, actions_entry, hC, hth]
        · intro r hr
          rcases List.mem_cons.mp hr with he | hr'
          · subst he
            obtain ⟨h1, h2⟩ := ihout p hp
            rw [hstep]
            constructor
            · rw [h1, mapLookup_remove_self, if_pos hth]
            · rw [h2, mapLookup_remove_self, if_pos hth]
          · obtain ⟨h1, h2⟩ := ihin r hr'
            rw [hstep]
            refine ⟨h1, ?_⟩
            rw [h2, mapLookup_remove_ne C (ne_fst_of_not_mem_map hr' hp)]
        · intro q hq
          simp only [List.map_cons, List.mem_cons, not_or] at hq
          obtain ⟨hq1, hq2⟩ := hq
          obtain ⟨h1, h2⟩ := ihout q hq2
          rw [hstep]
          constructor
          · rw [h1, mapLookup_remove_ne P (Ne.symm hq1)]
          · rw [h2, mapLookup_remove_ne C (Ne.symm hq1)]
      | none =>
        have hstep : sweep env th ⟨P, C, f0, e0, a0⟩ ((p, pd) :: rest)
            = sweep env th ⟨mapRemove P p, C, f0, e0, a0⟩ rest := by
          simp [sweep, hth, hC]
        obtain ⟨ihf, ihe, iha, ihin, ihout⟩ :=
          ih (mapRemove P p) C f0 e0 a0 hrest
        refine ⟨?_, ?_, ?_, ?_, ?_⟩
        · rw [hstep, ihf]
          simp [sweep_freed, List.filterMap_cons, freed_entry, hC]
        · rw [hstep, ihe]
          simp [sweep_events, List.filterMap_cons, events_entry, hC]
        · rw [hstep, iha]
          simp [sweep_actions, List.filterMap_cons, actions_entry, hC]
        · intro r hr
          rcases List.mem_cons.mp hr with he | hr'
          · subst he
            obtain ⟨h1, h2⟩ := ihout p hp
            rw [hstep]
            constructor
            · rw [h1, mapLookup_remove_self, if_pos hth]
            · rw [h2, hC, if_pos hth]
          · exact hstep ▸ ihin r hr'
        · intro q hq
          simp only [List.map_cons, List.mem_cons, not_or] at hq
          obtain ⟨hq1, hq2⟩ := hq
          obtain ⟨h1, h2⟩ := ihout q hq2
          rw [hstep]
          exact ⟨h1.trans (mapLookup_remove_ne P (Ne.symm hq1)), h2⟩
    · have hstep : sweep env th ⟨P, C, f0, e0, a0⟩ ((p, pd) :: rest)
          = sweep env th ⟨mapInsert P p pd, C, f0, e0, a0⟩ rest := by
        simp [sweep, hth]
      obtain ⟨ihf, ihe, iha, ihin, ihout⟩ :=
        ih (mapInsert P p pd) C f0 e0 a0 hrest
      obtain ⟨hbf, hbe, hba⟩ :=
        @below_entries_none env th C (p, pd) hth
      refine ⟨?_, ?_, ?_, ?_, ?_⟩
      · rw [hstep, ihf]
        simp [sweep_freed, List.filterMap_cons, hbf]
      · rw [hstep, ihe]
        simp [sweep_events, List.filterMap_cons, hbe]
      · rw [hstep, iha]
        simp [sweep_actions, List.filterMap_cons, hba]
      · intro r hr
        rcases List.mem_cons.mp hr with he | hr'
        · subst he
          obtain ⟨h1, h2⟩ := ihout p hp
          rw [hstep]
          constructor
          · rw [h1, mapLookup_insert_self, if_neg hth]
          · rw [h2, if_neg hth]
        · exact hstep ▸ ihin r hr'
      · intro q hq
        simp only [List.map_cons, List.mem_cons, not_or] at hq
        obtain ⟨hq1, hq2⟩ := hq
        obtain ⟨h1, h2⟩ := ihout q hq2
        rw [hstep]
        exact ⟨h1.trans (mapLookup_insert_ne P pd (Ne.symm hq1)), h2⟩

/-! ### Reduction of `process_bitfields` on each validation outcome -/

theorem process_bitfields_of_checks_err {env : Env}
    {core_lookup : CoreIndex → Option ParaId}
    {bfs : List SignedAvailabilityBitfield} {st : State} {e : Error}
    (h : bitfields_checks env core_lookup bfs st = some e) :
    process_bitfields env core_lookup bfs st = ⟨.error e, st, [], []⟩ := by
  unfold process_bitfields
  rw [h]

theorem process_bitfields_of_checks_none {env : Env}
    {core_lookup : CoreIndex → Option ParaId}
    {bfs : List SignedAvailabilityBitfield} {st : State}
    (h : bitfields_checks env core_lookup bfs st = none) :
    process_bitfields env core_lookup bfs st =
      ⟨.ok (sweep env (availability_threshold st.validators.length)
          ⟨st.pending_availability, st.pending_commitments, [], [], []⟩
          (folded_records env core_lookup bfs st)).freed,
       { st with
          availability_bitfields :=
            (fold_bitfields env.now
              (assigned_paras_record core_lookup st (n_bits_of env))
              st.availability_bitfields bfs).2,
          pending_availability :=
            (sweep env (availability_threshold st.validators.length)
              ⟨st.pending_availability, st.pending_commitments, [], [], []⟩
              (folded_records env core_lookup bfs st)).pending,
          pending_commitments :=
            (sweep env (availability_threshold st.validators.length)
              ⟨st.pending_availability, st.pending_commitments, [], [], []⟩
              (folded_records env core_lookup bfs st)).commitments },
       (sweep env (availability_threshold st.validators.length)
          ⟨st.pending_availability, st.pending_commitments, [], [], []⟩
          (folded_records env core_lookup bfs st)).events,
       (sweep env (availability_threshold st.validators.length)
          ⟨st.pending_availability, st.pending_commitments, [], [], []⟩
          (folded_records env core_lookup bfs st)).actions⟩ := by
  unfold process_bitfields folded_records
  rw [h]

theorem result_err_checks {env : Env} {core_lookup : CoreIndex → Option ParaId}
    {bfs : List SignedAvailabilityBitfield} {st : State} {e : Error}
    (h : (process_bitfields env core_lookup bfs st).result = .error e) :
    bitfields_checks env core_lookup bfs st = some e := by
  match hc : bitfields_checks env core_lookup bfs st with
  | some e' =>
    rw [process_bitfields_of_checks_err hc] at h
    simp at h
    rw [h]
  | none =>
    rw [process_bitfields_of_checks_none hc] at h
    simp at h

/-! ### Validation of a bitfield batch -/

/-- The validator indices traversed by the check loop, with the running last
index prefixed when present. -/
def idx_trace (last : Option ValidatorIndex)
    (bfs : List SignedAvailabilityBitfield) : List Nat :=
  (match last with | none => [] | some l => [l]) ++
    bfs.map (fun bf => bf.validator_index)

theorem check_bitfields_err_spec (env : Env) (sc : SigningContext)
    (validators : List ValidatorId) (n : Nat) (occ : List Bool) :
    ∀ (bfs : List SignedAvailabilityBitfield) (last : Option ValidatorIndex)
      (e : Error),
      check_bitfields env sc validators n occ last bfs = some e →
      (e = Error.WrongBitfieldSize ∧ ∃ bf ∈ bfs, bf.payload.length ≠ n) ∨
      (e = Error.BitfieldDuplicateOrUnordered ∧
        ¬ List.Chain' (· < ·) (idx_trace last bfs)) ∨
      (e = Error.ValidatorIndexOutOfBounds ∧
        ∃ bf ∈ bfs, ¬ bf.validator_index < validators.length) ∨
      (e = Error.UnoccupiedBitInBitfield ∧
        ∃ bf ∈ bfs, List.zipWith and occ bf.payload ≠ bf.payload) ∨
      (e = Error.InvalidBitfieldSignature ∧
        ∃ bf ∈ bfs, env.check_bitfield_signature sc
          (validators.getD bf.validator_index 0) bf = false) := by
  intro bfs
  induction bfs with
  | nil => intro last e h; simp [check_bitfields] at h
  | cons bf rest ih =>
    intro last e h
    unfold check_bitfields at h
    by_cases h1 : bf.payload.length ≠ n
    · rw [if_pos h1] at h
      exact Or.inl ⟨(Option.some_injective _ h).symm,
        bf, List.mem_cons_self _ _, h1⟩
    · rw [if_neg h1] at h
      by_cases h2 : (! last.all fun l => decide (l < bf.validator_index)) = true
      · rw [if_pos h2] at h
        refine Or.inr (Or.inl ⟨(Option.some_injective _ h).symm, ?_⟩)
        match last, h2 with
        | some l, h2 =>
          simp at h2
          intro hch
          simp only [idx_trace, List.singleton_append, List.map_cons] at hch
          exact absurd (List.chain'_cons.mp hch).1 (not_lt.mpr h2)
      · rw [if_neg h2] at h
        by_cases h3 : (! decide (bf.validator_index < validators.length)) = true
        · rw [if_pos h3] at h
          simp only [Bool.not_eq_true', decide_eq_false_iff_not] at h3
          exact Or.inr (Or.inr (Or.inl ⟨(Option.some_injective _ h).symm,
            bf, List.mem_cons_self _ _, h3⟩))
        · rw [if_neg h3] at h
          by_cases h4 : List.zipWith and occ bf.payload ≠ bf.payload
          · rw [if_pos h4] at h
            exact Or.inr (Or.inr (Or.inr (Or.inl ⟨(Option.some_injective _ h).symm,
              bf, List.mem_cons_self _ _, h4⟩)))
          · rw [if_neg h4] at h
            by_cases h5 : (! env.check_bitfield_signature sc
                (validators.getD bf.validator_index 0) bf) = true
            · rw [if_pos h5] at h
              simp only [Bool.not_eq_true'] at h5
              exact Or.inr (Or.inr (Or.inr (Or.inr
                ⟨(Option.some_injective _ h).symm,
                 bf, List.mem_cons_self _ _, h5⟩)))
            · rw [if_neg h5] at h
              rcases ih (some bf.validator_index) e h with
                hc | hc | hc | hc | hc
              · exact Or.inl ⟨hc.1, by
                  obtain ⟨b, hb, hbp⟩ := hc.2
                  exact ⟨b, List.mem_cons_of_mem _ hb, hbp⟩⟩
              · refine Or.inr (Or.inl ⟨hc.1, ?_⟩)
                intro hch
                apply hc.2
                have : List.Chain' (· < ·)
                    (bf.validator_index :: rest.map (fun b => b.validator_index)) := by
                  rcases last with _ | l
                  · simpa [idx_trace] using hch
                  · simp only [idx_trace, List.singleton_append, List.map_cons] at hch
                    exact (List.chain'_cons.mp hch).2
                simpa [idx_trace] using this
              · exact Or.inr (Or.inr (Or.inl ⟨hc.1, by
                  obtain ⟨b, hb, hbp⟩ := hc.2
                  exact ⟨b, List.mem_cons_of_mem _ hb, hbp⟩⟩))
              · exact Or.inr (Or.inr (Or.inr (Or.inl ⟨hc.1, by
                  obtain ⟨b, hb, hbp⟩ := hc.2
                  exact ⟨b, List.mem_cons_of_mem _ hb, hbp⟩⟩)))
              · exact Or.inr (Or.inr (Or.inr (Or.inr ⟨hc.1, by
                  obtain ⟨b, hb, hbp⟩ := hc.2
                  exact ⟨b, List.mem_cons_of_mem _ hb, hbp⟩⟩)))

theorem check_bitfields_ok_of_valid (env : Env) (sc : SigningContext)
    (validators : List ValidatorId) (n : Nat) (occ : List Bool) :
    ∀ (bfs : List SignedAvailabilityBitfield) (last : Option ValidatorIndex),
      (∀ bf ∈ bfs,
        bf.payload.length = n ∧
        bf.validator_index < validators.length ∧
        List.zipWith and occ bf.payload = bf.payload ∧
        env.check_bitfield_signature sc
          (validators.getD bf.validator_index 0) bf = true) →
      List.Chain' (· < ·) (idx_trace last bfs) →
      check_bitfields env sc validators n occ last bfs = none := by
  intro bfs
  induction bfs with
  | nil => intro last _ _; rfl
  | cons bf rest ih =>
    intro last hall hch
    obtain ⟨hsize, hbound, hmask, hsig⟩ := hall bf (List.mem_cons_self _ _)
    have horder : (last.all fun l => decide (l < bf.validator_index)) = true := by
      rcases last with _ | l
      · rfl
      · simp only [idx_trace, List.singleton_append, List.map_cons] at hch
        simp [(List.chain'_cons.mp hch).1]
    have hch' : List.Chain' (· < ·) (idx_trace (some bf.validator_index) rest) := by
      rcases last with _ | l
      · simpa [idx_trace] using hch
      · simp only [idx_trace, List.singleton_append, List.map_cons] at hch ⊢
        exact (List.chain'_cons.mp hch).2
    unfold check_bitfields
    rw [if_neg (by simpa using hsize), if_neg (by simp [horder]),
      if_neg (by simp [hbound]), if_neg (by simpa using hmask),
      if_neg (by rw [hsig]; simp)]
    exact ih (some bf.validator_index)
      (fun b hb => hall b (List.mem_cons_of_mem _ hb)) hch'

theorem check_bitfields_none_valid (env : Env) (sc : SigningContext)
    (validators : List ValidatorId) (n : Nat) (occ : List Bool) :
    ∀ (bfs : List SignedAvailabilityBitfield) (last : Option ValidatorIndex),
      check_bitfields env sc validators n occ last bfs = none →
      (∀ bf ∈ bfs,
        bf.payload.length = n ∧
        bf.validator_index < validators.length ∧
        List.zipWith and occ bf.payload = bf.payload ∧
        env.check_bitfield_signature sc
          (validators.getD bf.validator_index 0) bf = true) ∧
      List.Chain' (· < ·) (idx_trace last bfs) := by
  intro bfs
  induction bfs with
  | nil =>
    intro last _
    refine ⟨by simp, ?_⟩
    cases last <;> simp [idx_trace]
  | cons bf rest ih =>
    intro last h
    unfold check_bitfields at h
    by_cases h1 : bf.payload.length ≠ n
    · rw [if_pos h1] at h; cases h
    · rw [if_neg h1] at h
      by_cases h2 : (! last.all fun l => decide (l < bf.validator_index)) = true
      · rw [if_pos h2] at h; cases h
      · rw [if_neg h2] at h
        by_cases h3 : (! decide (bf.validator_index < validators.length)) = true
        · rw [if_pos h3] at h; cases h
        · rw [if_neg h3] at h
          by_cases h4 : List.zipWith and occ bf.payload ≠ bf.payload
          · rw [if_pos h4] at h; cases h
          · rw [if_neg h4] at h
            by_cases h5 : (! env.check_bitfield_signature sc
                (validators.getD bf.validator_index 0) bf) = true
            · rw [if_pos h5] at h; cases h
            · rw [if_neg h5] at h
              obtain ⟨hall, hch⟩ := ih (some bf.validator_index) h
              have hsize : bf.payload.length = n := not_not.mp h1
              have horder : (last.all fun l =>
                  decide (l < bf.validator_index)) = true := by
                simpa using h2
              have hbound : bf.validator_index < validators.length := by
                simpa using h3
              have hmask : List.zipWith and occ bf.payload = bf.payload :=
                not_not.mp h4
              have hsig : env.check_bitfield_signature sc
                  (validators.getD bf.validator_index 0) bf = true := by
                simpa using h5
              refine ⟨?_, ?_⟩
              · intro b hb
                rcases List.mem_cons.mp hb with he | hb'
                · subst he
                  exact ⟨hsize, hbound, hmask, hsig⟩
                · exact hall b hb'
              · rcases last with _ | l
                · simpa [idx_trace] using hch
                · simp only [idx_trace, List.singleton_append, List.map_cons]
                  refine List.chain'_cons.mpr ⟨?_, ?_⟩
                  · simpa using horder
                  · simpa [idx_trace] using hch

/-! ### Characterization of candidate matching and backing -/

theorem find_assignment_found_spec (env : Env) (st : State) (sc : SigningContext)
    (gl : GroupIndex → Option (List ValidatorIndex)) (cand : BackedCandidate) :
    ∀ (suffix : List CoreAssignment) (last : Option CoreIndex)
      (core : CoreIndex) (rest : List CoreAssignment) (last' : Option CoreIndex),
      find_assignment env st sc gl cand last suffix = .found core rest last' →
      ∃ a ∈ suffix, a.para_id = cand.candidate.descriptor.para_id ∧ core = a.core ∧
        (∀ x ∈ rest, x ∈ suffix) ∧
        ∃ gv, gl a.group_idx = some gv ∧
          cand.validity_votes.all
            (env.verify_backing_signature sc
              (gv.map (fun i => st.validators.getD i 0))) = true ∧
          gv.length < (cand.validity_votes.countP
            (env.verify_backing_signature sc
              (gv.map (fun i => st.validators.getD i 0)))) * 2 := by
  intro suffix
  induction suffix with
  | nil => intro last core rest last' h; simp [find_assignment] at h
  | cons a tail ih =>
    intro last core rest last' h
    unfold find_assignment at h
    by_cases h1 : (! last.all fun c => decide (c < a.core)) = true
    · rw [if_pos h1] at h; cases h
    · rw [if_neg h1] at h
      by_cases h2 : cand.candidate.descriptor.para_id = a.para_id
      · rw [if_pos h2] at h
        by_cases h3 : (! a.required_collator.all
            fun rc => decide (rc = cand.candidate.descriptor.collator)) = true
        · rw [if_pos h3] at h; cases h
        · rw [if_neg h3] at h
          match hpvd : env.make_persisted_validation_data_hash a.para_id with
          | none => simp only [hpvd] at h; cases h
          | some expected =>
            simp only [hpvd] at h
            by_cases h4 : expected ≠ cand.candidate.descriptor.persisted_validation_data_hash
            · rw [if_pos h4] at h; cases h
            · rw [if_neg h4] at h
              by_cases h5 : (! ((mapLookup st.pending_availability a.para_id).isNone &&
                  (mapLookup st.pending_commitments a.para_id).isNone)) = true
              · rw [if_pos h5] at h; cases h
              · rw [if_neg h5] at h
                match hgl : gl a.group_idx with
                | none => simp only [hgl] at h; cases h
                | some gv =>
                  simp only [hgl] at h
                  by_cases hv : cand.validity_votes.all
                      (env.verify_backing_signature sc
                        (gv.map (fun i => st.validators.getD i 0))) = true
                  · have hcb : check_candidate_backing
                        (env.verify_backing_signature sc
                          (gv.map (fun i => st.validators.getD i 0)))
                        cand.validity_votes
                        = Except.ok (cand.validity_votes.countP
                            (env.verify_backing_signature sc
                              (gv.map (fun i => st.validators.getD i 0)))) := by
                      unfold check_candidate_backing
                      rw [if_pos hv]
                    simp only [hcb] at h
                    by_cases hq : (! decide (gv.length <
                        (cand.validity_votes.countP
                          (env.verify_backing_signature sc
                            (gv.map (fun i => st.validators.getD i 0)))) * 2)) = true
                    · rw [if_pos hq] at h; cases h
                    · rw [if_neg hq] at h
                      cases h
                      simp only [Bool.not_eq_true', decide_eq_false_iff_not,
                        not_not] at hq
                      exact ⟨a, List.mem_cons_self _ _, h2.symm, rfl,
                        fun x hx => List.mem_cons_of_mem _ hx,
                        gv, hgl, hv, hq⟩
                  · have hcb : check_candidate_backing
                        (env.verify_backing_signature sc
                          (gv.map (fun i => st.validators.getD i 0)))
                        cand.validity_votes = Except.error () := by
                      unfold check_candidate_backing
                      rw [if_neg hv]
                    simp only [hcb] at h
                    cases h
      · rw [if_neg h2] at h
        obtain ⟨a', ha', hpa, hcore, hsub, hgv⟩ := ih (some a.core) core rest last' h
        exact ⟨a', List.mem_cons_of_mem _ ha', hpa, hcore,
          fun x hx => List.mem_cons_of_mem _ (hsub x hx), hgv⟩

theorem check_candidates_ok_backing (env : Env) (st : State) (sc : SigningContext)
    (gl : GroupIndex → Option (List ValidatorIndex)) (rpn : BlockNumber) :
    ∀ (cands : List BackedCandidate) (suffix : List CoreAssignment)
      (last : Option CoreIndex) (acc cores : List CoreIndex),
      check_candidates env st sc gl rpn cands suffix last acc = .ok cores →
      ∀ cand ∈ cands, ∃ a ∈ suffix,
        a.para_id = cand.candidate.descriptor.para_id ∧
        ∃ gv, gl a.group_idx = some gv ∧
          cand.validity_votes.all
            (env.verify_backing_signature sc
              (gv.map (fun i => st.validators.getD i 0))) = true ∧
          gv.length < (cand.validity_votes.countP
            (env.verify_backing_signature sc
              (gv.map (fun i => st.validators.getD i 0)))) * 2 := by
  intro cands
  induction cands with
  | nil => intro suffix last acc cores _ cand hc; simp at hc
  | cons c0 cs ih =>
    intro suffix last acc cores h cand hc
    unfold check_candidates at h
    by_cases h1 : c0.candidate.descriptor.relay_parent ≠ env.parent_hash
    · rw [if_pos h1] at h; cases h
    · rw [if_neg h1] at h
      by_cases h2 : (! valid_upgrade_attempt env rpn c0) = true
      · rw [if_pos h2] at h; cases h
      · rw [if_neg h2] at h
        by_cases h3 : (! env.check_collator_signature c0.candidate.descriptor) = true
        · rw [if_pos h3] at h; cases h
        · rw [if_neg h3] at h
          match hf : find_assignment env st sc gl c0 last suffix with
          | .err e => simp only [hf] at h; cases h
          | .emptyEarly => simp only [hf] at h; cases h
          | .found core rest last' =>
            simp only [hf] at h
            obtain ⟨a, ha, hpa, _, hsub, hgv⟩ :=
              find_assignment_found_spec env st sc gl c0 suffix last core rest last' hf
            rcases List.mem_cons.mp hc with he | hcs
            · exact he ▸ ⟨a, ha, hpa, hgv⟩
            · obtain ⟨a', ha', rest'⟩ := ih rest last' (acc ++ [core]) cores h cand hcs
              exact ⟨a', hsub a' ha', rest'⟩

theorem check_candidates_ok_length (env : Env) (st : State) (sc : SigningContext)
    (gl : GroupIndex → Option (List ValidatorIndex)) (rpn : BlockNumber) :
    ∀ (cands : List BackedCandidate) (suffix : List CoreAssignment)
      (last : Option CoreIndex) (acc cores : List CoreIndex),
      check_candidates env st sc gl rpn cands suffix last acc = .ok cores →
      cores.length = acc.length + cands.length := by
  intro cands
  induction cands with
  | nil =>
    intro suffix last acc cores h
    unfold check_candidates at h
    match hr : check_remaining last suffix with
    | some e => simp only [hr] at h; cases h
    | none => simp only [hr] at h; cases h; simp
  | cons c0 cs ih =>
    intro suffix last acc cores h
    unfold check_candidates at h
    by_cases h1 : c0.candidate.descriptor.relay_parent ≠ env.parent_hash
    · rw [if_pos h1] at h; cases h
    · rw [if_neg h1] at h
      by_cases h2 : (! valid_upgrade_attempt env rpn c0) = true
      · rw [if_pos h2] at h; cases h
      · rw [if_neg h2] at h
        by_cases h3 : (! env.check_collator_signature c0.candidate.descriptor) = true
        · rw [if_pos h3] at h; cases h
        · rw [if_neg h3] at h
          match hf : find_assignment env st sc gl c0 last suffix with
          | .err e => simp only [hf] at h; cases h
          | .emptyEarly => simp only [hf] at h; cases h
          | .found core rest last' =>
            simp only [hf] at h
            have := ih rest last' (acc ++ [core]) cores h
            simp only [List.length_append, List.length_cons,
              List.length_nil] at this ⊢
            omega

theorem find_assignment_emptyEarly_pvd (env : Env) (st : State) (sc : SigningContext)
    (gl : GroupIndex → Option (List ValidatorIndex)) (cand : BackedCandidate) :
    ∀ (suffix : List CoreAssignment) (last : Option CoreIndex),
      find_assignment env st sc gl cand last suffix = .emptyEarly →
      env.make_persisted_validation_data_hash
        cand.candidate.descriptor.para_id = none := by
  intro suffix
  induction suffix with
  | nil => intro last h; simp [find_assignment] at h
  | cons a tail ih =>
    intro last h
    unfold find_assignment at h
    by_cases h1 : (! last.all fun c => decide (c < a.core)) = true
    · rw [if_pos h1] at h; cases h
    · rw [if_neg h1] at h
      by_cases h2 : cand.candidate.descriptor.para_id = a.para_id
      · rw [if_pos h2] at h
        by_cases h3 : (! a.required_collator.all
            fun rc => decide (rc = cand.candidate.descriptor.collator)) = true
        · rw [if_pos h3] at h; cases h
        · rw [if_neg h3] at h
          match hpvd : env.make_persisted_validation_data_hash a.para_id with
          | none => rw [h2]; exact hpvd
          | some expected =>
            simp only [hpvd] at h
            by_cases h4 : expected ≠ cand.candidate.descriptor.persisted_validation_data_hash
            · rw [if_pos h4] at h; cases h
            · rw [if_neg h4] at h
              by_cases h5 : (! ((mapLookup st.pending_availability a.para_id).isNone &&
                  (mapLookup st.pending_commitments a.para_id).isNone)) = true
              · rw [if_pos h5] at h; cases h
              · rw [if_neg h5] at h
                match hgl : gl a.group_idx with
                | none => simp only [hgl] at h; cases h
                | some gv =>
                  simp only [hgl] at h
                  match hcb : check_candidate_backing
                      (env.verify_backing_signature sc
                        (gv.map (fun i => st.validators.getD i 0)))
                      cand.validity_votes with
                  | Except.error u => simp only [hcb] at h; cases h
                  | Except.ok amount =>
                    simp only [hcb] at h
                    by_cases hq : (! decide (gv.length < amount * 2)) = true
                    · rw [if_pos hq] at h; cases h
                    · rw [if_neg hq] at h; cases h
      · rw [if_neg h2] at h
        exact ih (some a.core) h

theorem check_candidates_emptyEarly_pvd (env : Env) (st : State) (sc : SigningContext)
    (gl : GroupIndex → Option (List ValidatorIndex)) (rpn : BlockNumber) :
    ∀ (cands : List BackedCandidate) (suffix : List CoreAssignment)
      (last : Option CoreIndex) (acc : List CoreIndex),
      check_candidates env st sc gl rpn cands suffix last acc = .emptyEarly →
      ∃ cand ∈ cands,
        env.make_persisted_validation_data_hash
          cand.candidate.descriptor.para_id = none := by
  intro cands
  induction cands with
  | nil =>
    intro suffix last acc h
    unfold check_candidates at h
    match hr : check_remaining last suffix with
    | some e => simp only [hr] at h; cases h
    | none => simp only [hr] at h; cases h
  | cons c0 cs ih =>
    intro suffix last acc h
    unfold check_candidates at h
    by_cases h1 : c0.candidate.descriptor.relay_parent ≠ env.parent_hash
    · rw [if_pos h1] at h; cases h
    · rw [if_neg h1] at h
      by_cases h2 : (! valid_upgrade_attempt env rpn c0) = true
      · rw [if_pos h2] at h; cases h
      · rw [if_neg h2] at h
        by_cases h3 : (! env.check_collator_signature c0.candidate.descriptor) = true
        · rw [if_pos h3] at h; cases h
        · rw [if_neg h3] at h
          match hf : find_assignment env st sc gl c0 last suffix with
          | .err e => simp only [hf] at h; cases h
          | .emptyEarly =>
            exact ⟨c0, List.mem_cons_self _ _,
              find_assignment_emptyEarly_pvd env st sc gl c0 suffix last hf⟩
          | .found core rest last' =>
            simp only [hf] at h
            obtain ⟨cand, hc, hpvd⟩ := ih rest last' (acc ++ [core]) h
            exact ⟨cand, List.mem_cons_of_mem _ hc, hpvd⟩

/-! ### Reduction of `process_candidates` on each validation outcome -/

theorem process_candidates_of_err {env : Env}
    {gl : GroupIndex → Option (List ValidatorIndex)}
    {candidates : List BackedCandidate} {scheduled : List CoreAssignment}
    {st : State} {e : Error}
    (hlen : candidates.length ≤ scheduled.length) (hne : scheduled ≠ [])
    (h : check_candidates env st (signing_context_of env st) gl (env.now - 1)
        candidates scheduled none [] = .err e) :
    process_candidates env gl candidates scheduled st = ⟨.error e, st, [], []⟩ := by
  unfold process_candidates
  rw [if_neg (Nat.not_lt.mpr hlen), if_neg (by simp [hne]), h]

theorem process_candidates_of_emptyEarly {env : Env}
    {gl : GroupIndex → Option (List ValidatorIndex)}
    {candidates : List BackedCandidate} {scheduled : List CoreAssignment}
    {st : State}
    (hlen : candidates.length ≤ scheduled.length) (hne : scheduled ≠ [])
    (h : check_candidates env st (signing_context_of env st) gl (env.now - 1)
        candidates scheduled none [] = .emptyEarly) :
    process_candidates env gl candidates scheduled st = ⟨.ok [], st, [], []⟩ := by
  unfold process_candidates
  rw [if_neg (Nat.not_lt.mpr hlen), if_neg (by simp [hne]), h]

theorem process_candidates_of_ok {env : Env}
    {gl : GroupIndex → Option (List ValidatorIndex)}
    {candidates : List BackedCandidate} {scheduled : List CoreAssignment}
    {st : State} {cores : List CoreIndex}
    (hlen : candidates.length ≤ scheduled.length) (hne : scheduled ≠ [])
    (h : check_candidates env st (signing_context_of env st) gl (env.now - 1)
        candidates scheduled none [] = .ok cores) :
    process_candidates env gl candidates scheduled st =
      ⟨.ok cores,
       (admit_candidates st.validators.length (env.now - 1) env.now st []
          (candidates.zip cores)).1,
       (admit_candidates st.validators.length (env.now - 1) env.now st []
          (candidates.zip cores)).2, []⟩ := by
  unfold process_candidates
  rw [if_neg (Nat.not_lt.mpr hlen), if_neg (by simp [hne]), h]

/-! ### The pending-pair synchronization invariant -/

/-- A shard has a pending-availability entry exactly when it has a
pending-commitments entry. -/
def SyncInv (st : State) : Prop :=
  ∀ p : ParaId, (mapLookup st.pending_availability p).isSome =
    (mapLookup st.pending_commitments p).isSome

theorem remove_both_sync {st : State} (k : ParaId) (h : SyncInv st) :
    SyncInv { st with
      pending_availability := mapRemove st.pending_availability k,
      pending_commitments := mapRemove st.pending_commitments k } := by
  intro q
  by_cases hq : k = q
  · subst hq
    simp [mapLookup_remove_self]
  · simp only [mapLookup_remove_ne _ hq]
    exact h q

theorem collect_step_fst (acc : State × List Event) (para : ParaId) :
    (collect_step acc para).1 = { acc.1 with
      pending_availability := mapRemove acc.1.pending_availability para,
      pending_commitments := mapRemove acc.1.pending_commitments para } := by
  unfold collect_step
  cases mapLookup acc.1.pending_availability para <;>
    cases mapLookup acc.1.pending_commitments para <;> rfl

theorem foldl_collect_sync :
    ∀ (ids : List ParaId) (acc : State × List Event), SyncInv acc.1 →
      SyncInv ((ids.foldl collect_step acc).1) := by
  intro ids
  induction ids with
  | nil => intro acc h; exact h
  | cons k rest ih =>
    intro acc h
    simp only [List.foldl_cons]
    apply ih
    rw [collect_step_fst]
    exact remove_both_sync k h

theorem admit_preserves_sync (n rpn nowv : Nat) :
    ∀ (pairs : List (BackedCandidate × CoreIndex)) (st : State) (evs : List Event),
      SyncInv st → SyncInv (admit_candidates n rpn nowv st evs pairs).1 := by
  intro pairs
  induction pairs with
  | nil => intro st evs h; exact h
  | cons pr rest ih =>
    intro st evs h
    obtain ⟨cand, core⟩ := pr
    unfold admit_candidates
    apply ih
    intro q
    by_cases hq : cand.candidate.descriptor.para_id = q
    · subst hq
      simp [mapLookup_insert_self]
    · simp only [mapLookup_insert_ne _ _ hq]
      exact h q

theorem force_enact_fst (env : Env) (para : ParaId) (st : State) :
    (force_enact env para st).1 = { st with
      pending_availability := mapRemove st.pending_availability para,
      pending_commitments := mapRemove st.pending_commitments para } := by
  unfold force_enact
  cases mapLookup st.pending_availability para <;>
    cases mapLookup st.pending_commitments para <;> rfl

theorem folded_pending_isSome {env : Env} {core_lookup : CoreIndex → Option ParaId}
    {bfs : List SignedAvailabilityBitfield} {st : State}
    {p : ParaId} {pc : CandidatePendingAvailability}
    (hr : (p, pc) ∈ folded_records env core_lookup bfs st) :
    ∃ pd₀, mapLookup st.pending_availability p = some pd₀ := by
  unfold folded_records at hr
  obtain ⟨pd₀, hmem⟩ := mem_fold_bitfields_occupied bfs _ _ p pc hr
  exact ⟨pd₀, mem_assigned_paras_record hmem⟩

theorem process_bitfields_sync {env : Env} {core_lookup : CoreIndex → Option ParaId}
    {bfs : List SignedAvailabilityBitfield} {st : State}
    (hnd : ((folded_records env core_lookup bfs st).map Prod.fst).Nodup)
    (h : SyncInv st) :
    SyncInv (process_bitfields env core_lookup bfs st).state := by
  match hc : bitfields_checks env core_lookup bfs st with
  | some e => rw [process_bitfields_of_checks_err hc]; exact h
  | none =>
    rw [process_bitfields_of_checks_none hc]
    obtain ⟨_, _, _, hin, hout⟩ :=
      sweep_spec env (availability_threshold st.validators.length)
        (folded_records env core_lookup bfs st)
        st.pending_availability st.pending_commitments [] [] [] hnd
    intro q
    by_cases hq : q ∈ (folded_records env core_lookup bfs st).map Prod.fst
    · obtain ⟨r, hr, hrq⟩ := List.mem_map.mp hq
      obtain ⟨p, pc⟩ := r
      simp only at hrq
      subst hrq
      obtain ⟨h1, h2⟩ := hin (p, pc) hr
      simp only at h1 h2
      by_cases hth : availability_threshold st.validators.length ≤
          count_ones pc.availability_votes
      · simp [h1, h2, hth]
      · simp only [h1, h2, if_neg hth]
        obtain ⟨pd₀, hp₀⟩ := folded_pending_isSome hr
        have := h p
        rw [hp₀] at this
        simp only [Option.isSome_some] at this ⊢
        exact this
    · obtain ⟨h1, h2⟩ := hout q hq
      simp only [h1, h2]
      exact h q

/-! ### Concrete fixtures used by the closed theorems -/

/-- A descriptor for shard 5. -/
def exDesc : CandidateDescriptor := ⟨5, 100, 7, 11, 13, 17⟩

/-- A pending-availability record on core 0 with one vote out of three. -/
def exPending : CandidatePendingAvailability := ⟨0, exDesc, [true, false, false], 0, 1⟩

/-- Commitments with head data 99 and no code upgrade. -/
def exComm : CandidateCommitments := ⟨99, none⟩

/-- An environment with two cores (one parachain, one parathread core) and
always-accepting signature oracles. -/
def exEnv : Env :=
  { parachains := [5], parathread_cores := 1,
    validation_upgrade_delay := 2, validation_upgrade_frequency := 4,
    parent_hash := 100, now := 3,
    check_bitfield_signature := fun _ _ _ => true,
    check_collator_signature := fun _ => true,
    last_code_upgrade := fun _ => none,
    make_persisted_validation_data_hash := fun _ => some 11,
    verify_backing_signature := fun _ _ _ => true }

/-- A consistent state: shard 5 is pending on core 0 with its commitments. -/
def exSt : State :=
  { availability_bitfields := [],
    pending_availability := [(5, exPending)],
    pending_commitments := [(5, exComm)],
    validators := [10, 11, 12],
    current_session_index := 7 }

/-- A core-to-shard lookup that assigns BOTH cores 0 and 1 to shard 5. -/
def exLookupDup : CoreIndex → Option ParaId := fun i => if i < 2 then some 5 else none

/-- A bitfield of validator 1 voting for core 0 only. -/
def exBf : SignedAvailabilityBitfield := ⟨[true, false], 1, 0⟩

/-- A trivial environment. -/
def env0 : Env :=
  { parachains := [], parathread_cores := 0,
    validation_upgrade_delay := 0, validation_upgrade_frequency := 0,
    parent_hash := 0, now := 0,
    check_bitfield_signature := fun _ _ _ => true,
    check_collator_signature := fun _ => true,
    last_code_upgrade := fun _ => none,
    make_persisted_validation_data_hash := fun _ => none,
    verify_backing_signature := fun _ _ _ => true }

/-- The empty state. -/
def st0 : State := ⟨[], [], [], [], 0⟩

/-- A trivial group-validators lookup. -/
def gl0 : GroupIndex → Option (List ValidatorIndex) := fun _ => none

/-- A backed candidate fixture. -/
def cand0 : BackedCandidate := ⟨⟨exDesc, exComm⟩, []⟩

/-- A desynchronized state: shard 5 has a pending entry but no commitments. -/
def exSt9 : State := ⟨[], [(5, exPending)], [], [10], 0⟩

/-! ### Claims -/

/-- C5 counterexample: the claim asserts the threshold is 3 for n = 3, but
`n - floor(n/3)` at n = 3 is 2, and the code computes 2. -/
theorem claim_C5_counterexample :
    availability_threshold 3 = 2 ∧ availability_threshold 3 ≠ 3 := by decide

/-- C5 (amended): for every validator-set size `n`, the supermajority
threshold `availability_threshold n` equals `n - floor(n/3)`; in particular
it is 4 for n = 5, 2 for n = 3 and 1 for n = 1, and the function is total. -/
theorem claim_C5_supermajority_threshold :
    (∀ n : Nat, availability_threshold n = n - n / 3) ∧
    availability_threshold 5 = 4 ∧ availability_threshold 3 = 2 ∧
    availability_threshold 1 = 1 :=
  ⟨fun n => by simp [availability_threshold], by decide, by decide, by decide⟩

/-- C8: `process_candidates` fails with `UnscheduledCandidate` and mutates
nothing when there are more candidates than core assignments; under that
precondition, an empty assignment list short-circuits to an empty result
with nothing mutated. -/
theorem claim_C8_unscheduled_and_empty (env : Env)
    (gl : GroupIndex → Option (List ValidatorIndex))
    (candidates : List BackedCandidate) (scheduled : List CoreAssignment)
    (st : State) :
    (scheduled.length < candidates.length →
      process_candidates env gl candidates scheduled st
        = ⟨.error Error.UnscheduledCandidate, st, [], []⟩) ∧
    (scheduled = [] → candidates.length ≤ scheduled.length →
      process_candidates env gl candidates scheduled st = ⟨.ok [], st, [], []⟩) := by
  constructor
  · intro hlt
    unfold process_candidates
    rw [if_pos hlt]
  · intro hemp hle
    subst hemp
    unfold process_candidates
    rw [if_neg (Nat.not_lt.mpr hle)]
    rfl

theorem claim_C8_witness :
    process_candidates env0 gl0 [cand0] [] st0
        = ⟨.error Error.UnscheduledCandidate, st0, [], []⟩ ∧
    process_candidates env0 gl0 [] [] st0 = ⟨.ok [], st0, [], []⟩ :=
  ⟨(claim_C8_unscheduled_and_empty env0 gl0 [cand0] [] st0).1 (by decide),
   (claim_C8_unscheduled_and_empty env0 gl0 [] [] st0).2 rfl (by decide)⟩

/-- C9 counterexample: in a state where shard 5 has a pending entry but no
commitments, `force_enact` is NOT a no-op: the take semantics removes the
lone pending entry, so the resulting state differs from the input state. -/
theorem claim_C9_counterexample :
    mapLookup exSt9.pending_availability 5 = some exPending ∧
    mapLookup exSt9.pending_commitments 5 = none ∧
    (force_enact env0 5 exSt9).1 ≠ exSt9 := by decide

/-- C9 (amended): `force_enact` runs Enactment and clears the pair when both
entries exist; when neither entry exists it leaves the state unchanged; when
exactly one of the two exists it performs no enactment and emits nothing,
but removes the lone entry (take semantics) rather than leaving it. -/
theorem claim_C9_force_enact (env : Env) (para : ParaId) (st : State) :
    (∀ pd c, mapLookup st.pending_availability para = some pd →
      mapLookup st.pending_commitments para = some c →
      force_enact env para st =
        ({ st with
            pending_availability := mapRemove st.pending_availability para,
            pending_commitments := mapRemove st.pending_commitments para },
         (enact_candidate env pd.relay_parent_number ⟨pd.descriptor, c⟩).1,
         (enact_candidate env pd.relay_parent_number ⟨pd.descriptor, c⟩).2)) ∧
    ((mapLookup st.pending_availability para = none ∨
      mapLookup st.pending_commitments para = none) →
      force_enact env para st =
        ({ st with
            pending_availability := mapRemove st.pending_availability para,
            pending_commitments := mapRemove st.pending_commitments para },
         [], [])) ∧
    (mapLookup st.pending_availability para = none →
     mapLookup st.pending_commitments para = none →
      force_enact env para st = (st, [], [])) := by
  refine ⟨?_, ?_, ?_⟩
  · intro pd c hp hcm
    unfold force_enact
    rw [hp, hcm]
  · intro hor
    unfold force_enact
    rcases hor with hp | hcm
    · rw [hp]
    · rw [hcm]
      cases mapLookup st.pending_availability para <;> rfl
  · intro hp hcm
    unfold force_enact
    rw [hp, hcm, mapRemove_of_lookup_none _ _ hp, mapRemove_of_lookup_none _ _ hcm]

theorem claim_C9_witness :
    force_enact env0 5 exSt9 =
      ({ exSt9 with
          pending_availability := mapRemove exSt9.pending_availability 5,
          pending_commitments := mapRemove exSt9.pending_commitments 5 },
       [], []) ∧
    force_enact env0 7 st0 = (st0, [], []) :=
  ⟨(claim_C9_force_enact env0 5 exSt9).2.1 (Or.inr (by decide)),
   (claim_C9_force_enact env0 7 st0).2.2 (by decide) (by decide)⟩

/-- C10: the read-only query `candidate_pending_availability` returns the
committed receipt exactly when both the pending entry and the commitments
entry exist; in a desynchronized state (either half missing) it returns
`none` without failing; being a pure function of the state, it modifies
nothing. -/
theorem claim_C10_pending_query (st : State) (para : ParaId) :
    (∀ pd c, mapLookup st.pending_availability para = some pd →
      mapLookup st.pending_commitments para = some c →
      candidate_pending_availability st para = some ⟨pd.descriptor, c⟩) ∧
    (mapLookup st.pending_availability para = none →
      candidate_pending_availability st para = none) ∧
    (mapLookup st.pending_commitments para = none →
      candidate_pending_availability st para = none) ∧
    (∀ r, candidate_pending_availability st para = some r →
      ∃ pd c, mapLookup st.pending_availability para = some pd ∧
        mapLookup st.pending_commitments para = some c ∧
        r = ⟨pd.descriptor, c⟩) := by
  refine ⟨?_, ?_, ?_, ?_⟩
  · intro pd c hp hcm
    simp [candidate_pending_availability, hp, hcm]
  · intro hp
    simp [candidate_pending_availability, hp]
  · intro hcm
    match hp : mapLookup st.pending_availability para with
    | none => simp [candidate_pending_availability, hp]
    | some pd => simp [candidate_pending_availability, hp, hcm]
  · intro r hr
    match hp : mapLookup st.pending_availability para with
    | none => simp [candidate_pending_availability, hp] at hr
    | some pd =>
      match hcm : mapLookup st.pending_commitments para with
      | none => simp [candidate_pending_availability, hp, hcm] at hr
      | some c =>
        simp [candidate_pending_availability, hp, hcm] at hr
        exact ⟨pd, c, rfl, rfl, hr.symm⟩

theorem claim_C10_witness :
    candidate_pending_availability exSt 5 = some ⟨exPending.descriptor, exComm⟩ ∧
    candidate_pending_availability exSt9 5 = none :=
  ⟨(claim_C10_pending_query exSt 5).1 exPending exComm (by decide) (by decide),
   (claim_C10_pending_query exSt9 5).2.2.1 (by decide)⟩

/-- C2: whenever `process_bitfields` returns a validation error, no stored
state is modified (the state, event log and paras-call log are untouched)
and the error is one of the five specific validation errors, naming a check
that some bitfield of the batch actually fails; a batch in which every
bitfield passes all five checks (size, strictly ascending validator indices,
index bounds, occupied mask, signature) is never rejected; and conversely,
a batch containing any bitfield that fails one of the five checks IS
rejected: the call returns some validation error and modifies nothing. -/
theorem claim_C2_bitfield_validation (env : Env)
    (core_lookup : CoreIndex → Option ParaId)
    (bfs : List SignedAvailabilityBitfield) (st : State) :
    (∀ e, (process_bitfields env core_lookup bfs st).result = .error e →
      (process_bitfields env core_lookup bfs st).state = st ∧
      (process_bitfields env core_lookup bfs st).events = [] ∧
      (process_bitfields env core_lookup bfs st).actions = [] ∧
      ((e = Error.WrongBitfieldSize ∧
          ∃ bf ∈ bfs, bf.payload.length ≠ n_bits_of env) ∨
       (e = Error.BitfieldDuplicateOrUnordered ∧
          ¬ List.Chain' (· < ·) (bfs.map (fun bf => bf.validator_index))) ∨
       (e = Error.ValidatorIndexOutOfBounds ∧
          ∃ bf ∈ bfs, ¬ bf.validator_index < st.validators.length) ∨
       (e = Error.UnoccupiedBitInBitfield ∧
          ∃ bf ∈ bfs, List.zipWith and
            (occupied_bitmask (assigned_paras_record core_lookup st (n_bits_of env)))
            bf.payload ≠ bf.payload) ∨
       (e = Error.InvalidBitfieldSignature ∧
          ∃ bf ∈ bfs, env.check_bitfield_signature (signing_context_of env st)
            (st.validators.getD bf.validator_index 0) bf = false))) ∧
    ((∀ bf ∈ bfs,
        bf.payload.length = n_bits_of env ∧
        bf.validator_index < st.validators.length ∧
        List.zipWith and
          (occupied_bitmask (assigned_paras_record core_lookup st (n_bits_of env)))
          bf.payload = bf.payload ∧
        env.check_bitfield_signature (signing_context_of env st)
          (st.validators.getD bf.validator_index 0) bf = true) →
      List.Chain' (· < ·) (bfs.map (fun bf => bf.validator_index)) →
      ∃ freed, (process_bitfields env core_lookup bfs st).result = .ok freed) ∧
    (((∃ bf ∈ bfs,
        bf.payload.length ≠ n_bits_of env ∨
        ¬ bf.validator_index < st.validators.length ∨
        List.zipWith and
          (occupied_bitmask (assigned_paras_record core_lookup st (n_bits_of env)))
          bf.payload ≠ bf.payload ∨
        env.check_bitfield_signature (signing_context_of env st)
          (st.validators.getD bf.validator_index 0) bf = false) ∨
      ¬ List.Chain' (· < ·) (bfs.map (fun bf => bf.validator_index))) →
      ∃ e, (process_bitfields env core_lookup bfs st).result = .error e ∧
        (process_bitfields env core_lookup bfs st).state = st ∧
        (process_bitfields env core_lookup bfs st).events = [] ∧
        (process_bitfields env core_lookup bfs st).actions = []) := by
  refine ⟨?_, ?_, ?_⟩
  · intro e h
    have hc := result_err_checks h
    rw [process_bitfields_of_checks_err hc]
    refine ⟨rfl, rfl, rfl, ?_⟩
    unfold bitfields_checks at hc
    have := check_bitfields_err_spec env (signing_context_of env st) st.validators
      (n_bits_of env)
      (occupied_bitmask (assigned_paras_record core_lookup st (n_bits_of env)))
      bfs none e hc
    simpa [idx_trace] using this
  · intro hall hch
    have hc : bitfields_checks env core_lookup bfs st = none := by
      unfold bitfields_checks
      exact check_bitfields_ok_of_valid env (signing_context_of env st) st.validators
        (n_bits_of env)
        (occupied_bitmask (assigned_paras_record core_lookup st (n_bits_of env)))
        bfs none hall (by simpa [idx_trace] using hch)
    rw [process_bitfields_of_checks_none hc]
    exact ⟨_, rfl⟩
  · intro hbad
    match hc : bitfields_checks env core_lookup bfs st with
    | some e =>
      refine ⟨e, ?_, ?_, ?_, ?_⟩ <;> rw [process_bitfields_of_checks_err hc]
    | none =>
      exfalso
      unfold bitfields_checks at hc
      obtain ⟨hall, hch⟩ := check_bitfields_none_valid env
        (signing_context_of env st) st.validators (n_bits_of env)
        (occupied_bitmask (assigned_paras_record core_lookup st (n_bits_of env)))
        bfs none hc
      rcases hbad with ⟨bf, hbf, hfail⟩ | hnc
      · obtain ⟨hs, hb, hm, hg⟩ := hall bf hbf
        rcases hfail with hf | hf | hf | hf
        · exact hf hs
        · exact hf hb
        · exact hf hm
        · rw [hg] at hf; cases hf
      · exact hnc (by simpa [idx_trace] using hch)

theorem claim_C2_witness :
    ((process_bitfields exEnv exLookupDup [⟨[true], 0, 0⟩] exSt).state = exSt ∧
      (process_bitfields exEnv exLookupDup [⟨[true], 0, 0⟩] exSt).result
        = .error Error.WrongBitfieldSize) ∧
    (∃ freed, (process_bitfields exEnv exLookupDup [exBf] exSt).result = .ok freed) ∧
    (∃ e, (process_bitfields exEnv exLookupDup [⟨[true], 0, 0⟩] exSt).result
        = .error e ∧
      (process_bitfields exEnv exLookupDup [⟨[true], 0, 0⟩] exSt).state = exSt ∧
      (process_bitfields exEnv exLookupDup [⟨[true], 0, 0⟩] exSt).events = [] ∧
      (process_bitfields exEnv exLookupDup [⟨[true], 0, 0⟩] exSt).actions = []) :=
  ⟨⟨((claim_C2_bitfield_validation exEnv exLookupDup [⟨[true], 0, 0⟩] exSt).1
      Error.WrongBitfieldSize (by decide)).1, by decide⟩,
   (claim_C2_bitfield_validation exEnv exLookupDup [exBf] exSt).2.1
     (by decide) (by simp),
   (claim_C2_bitfield_validation exEnv exLookupDup [⟨[true], 0, 0⟩] exSt).2.2
     (Or.inl ⟨⟨[true], 0, 0⟩, by decide, Or.inl (by decide)⟩)⟩

/-- The backing-signature verifier for one assignment group: the opaque
primitive applied to the signing context and the public keys of the group
validators. -/
def backing_verifier (env : Env) (st : State) (gv : List ValidatorIndex) :
    BackingVote → Bool :=
  env.verify_backing_signature (signing_context_of env st)
    (gv.map (fun i => st.validators.getD i 0))

theorem find_assignment_singleton (env : Env) (st : State)
    (gl : GroupIndex → Option (List ValidatorIndex)) (cand : BackedCandidate)
    (a : CoreAssignment) (gv : List ValidatorIndex)
    (h4 : cand.candidate.descriptor.para_id = a.para_id)
    (h5 : a.required_collator = none ∨
      a.required_collator = some cand.candidate.descriptor.collator)
    (h6 : env.make_persisted_validation_data_hash a.para_id
      = some cand.candidate.descriptor.persisted_validation_data_hash)
    (h7 : mapLookup st.pending_availability a.para_id = none)
    (h8 : mapLookup st.pending_commitments a.para_id = none)
    (h9 : gl a.group_idx = some gv) :
    find_assignment env st (signing_context_of env st) gl cand none [a] =
      match check_candidate_backing (backing_verifier env st gv)
          cand.validity_votes with
      | Except.error _ => .err Error.InvalidBacking
      | Except.ok amount =>
        if (! decide (gv.length < amount * 2)) = true then
          .err Error.InsufficientBacking
        else .found a.core [] (some a.core) := by
  unfold find_assignment
  rw [if_neg (by simp), if_pos h4,
    if_neg (by rcases h5 with h5 | h5 <;> simp [h5])]
  simp only [h6]
  rw [if_neg (by simp)]
  rw [if_neg (by simp [h7, h8])]
  simp only [h9]
  rfl

theorem check_candidates_single (env : Env) (st : State) (sc : SigningContext)
    (gl : GroupIndex → Option (List ValidatorIndex)) (rpn : BlockNumber)
    (cand : BackedCandidate) (a : CoreAssignment)
    (h1 : cand.candidate.descriptor.relay_parent = env.parent_hash)
    (h2 : valid_upgrade_attempt env rpn cand = true)
    (h3 : env.check_collator_signature cand.candidate.descriptor = true) :
    check_candidates env st sc gl rpn [cand] [a] none [] =
      match find_assignment env st sc gl cand none [a] with
      | .err e => .err e
      | .emptyEarly => .emptyEarly
      | .found core rest last' =>
          check_candidates env st sc gl rpn [] rest last' ([] ++ [core]) := by
  unfold check_candidates
  rw [if_neg (by simp [h1]), if_neg (by simp [h2]), if_neg (by simp [h3])]
  cases find_assignment env st sc gl cand none [a] <;> rfl

/-- C3: admitted candidates are exactly the sufficiently backed ones.  In a
successful full-batch call every candidate was matched to an assignment
whose group verified all its backing votes with `v * 2 > group_size` for `v`
the count of valid votes; and on a single matched candidate passing every
other check, an invalid backing signature fails the whole call with
`InvalidBacking`, while a fully valid backing set with `v * 2 <= group_size`
fails it with `InsufficientBacking`, and with `v * 2 > group_size` the
candidate is accepted on the assignment core. -/
theorem claim_C3_backing_quorum (env : Env) (st : State)
    (gl : GroupIndex → Option (List ValidatorIndex)) (cand : BackedCandidate)
    (a : CoreAssignment) (gv : List ValidatorIndex)
    (h1 : cand.candidate.descriptor.relay_parent = env.parent_hash)
    (h2 : valid_upgrade_attempt env (env.now - 1) cand = true)
    (h3 : env.check_collator_signature cand.candidate.descriptor = true)
    (h4 : cand.candidate.descriptor.para_id = a.para_id)
    (h5 : a.required_collator = none ∨
      a.required_collator = some cand.candidate.descriptor.collator)
    (h6 : env.make_persisted_validation_data_hash a.para_id
      = some cand.candidate.descriptor.persisted_validation_data_hash)
    (h7 : mapLookup st.pending_availability a.para_id = none)
    (h8 : mapLookup st.pending_commitments a.para_id = none)
    (h9 : gl a.group_idx = some gv) :
    ((∃ v ∈ cand.validity_votes, backing_verifier env st gv v = false) →
      (process_candidates env gl [cand] [a] st).result
        = .error Error.InvalidBacking) ∧
    ((∀ v ∈ cand.validity_votes, backing_verifier env st gv v = true) →
      (cand.validity_votes.countP (backing_verifier env st gv)) * 2 ≤ gv.length →
      (process_candidates env gl [cand] [a] st).result
        = .error Error.InsufficientBacking) ∧
    ((∀ v ∈ cand.validity_votes, backing_verifier env st gv v = true) →
      gv.length < (cand.validity_votes.countP (backing_verifier env st gv)) * 2 →
      (process_candidates env gl [cand] [a] st).result = .ok [a.core]) ∧
    (∀ (cands : List BackedCandidate) (sched : List CoreAssignment)
        (cores : List CoreIndex),
      (process_candidates env gl cands sched st).result = .ok cores →
      cands.length ≤ cores.length →
      ∀ c ∈ cands, ∃ a' ∈ sched,
        a'.para_id = c.candidate.descriptor.para_id ∧
        ∃ gv', gl a'.group_idx = some gv' ∧
          c.validity_votes.all (backing_verifier env st gv') = true ∧
          gv'.length <
            (c.validity_votes.countP (backing_verifier env st gv')) * 2) := by
  have hfa := find_assignment_singleton env st gl cand a gv h4 h5 h6 h7 h8 h9
  have hcs := check_candidates_single env st (signing_context_of env st) gl
    (env.now - 1) cand a h1 h2 h3
  refine ⟨?_, ?_, ?_, ?_⟩
  · intro hinv
    have hcb : check_candidate_backing (backing_verifier env st gv)
        cand.validity_votes = Except.error () := by
      unfold check_candidate_backing
      rw [if_neg]
      intro hall
      obtain ⟨v, hv, hvf⟩ := hinv
      have := List.all_eq_true.mp hall v hv
      rw [hvf] at this
      cases this
    rw [process_candidates_of_err (by simp) (by simp)
      (by rw [hcs, hfa, hcb])]
  · intro hall hle
    have hcb : check_candidate_backing (backing_verifier env st gv)
        cand.validity_votes = Except.ok (cand.validity_votes.countP
          (backing_verifier env st gv)) := by
      unfold check_candidate_backing
      rw [if_pos (List.all_eq_true.mpr hall)]
    have herr : check_candidates env st (signing_context_of env st) gl
        (env.now - 1) [cand] [a] none [] = .err Error.InsufficientBacking := by
      rw [hcs, hfa, hcb]
      simp [Nat.not_lt.mpr hle]
    rw [process_candidates_of_err (by simp) (by simp) herr]
  · intro hall hlt
    have hcb : check_candidate_backing (backing_verifier env st gv)
        cand.validity_votes = Except.ok (cand.validity_votes.countP
          (backing_verifier env st gv)) := by
      unfold check_candidate_backing
      rw [if_pos (List.all_eq_true.mpr hall)]
    rw [process_candidates_of_ok (by simp) (by simp)
      (by rw [hcs, hfa, hcb]; simp [hlt]; rfl)]
  · intro cands sched cores hok hlen c hc
    unfold process_candidates at hok
    by_cases hg1 : sched.length < cands.length
    · rw [if_pos hg1] at hok
      simp at hok
    · rw [if_neg hg1] at hok
      by_cases hg2 : sched.isEmpty = true
      · rw [if_pos hg2] at hok
        simp at hok
        subst hok
        have : cands = [] := by
          rw [List.isEmpty_iff] at hg2
          subst hg2
          simpa using hg1
        subst this
        simp at hc
      · rw [if_neg hg2] at hok
        match hck : check_candidates env st (signing_context_of env st) gl
            (env.now - 1) cands sched none [] with
        | .err e => rw [hck] at hok; simp at hok
        | .emptyEarly =>
          rw [hck] at hok
          simp at hok
          subst hok
          have : cands = [] := by simpa using hlen
          subst this
          simp at hc
        | .ok cores' =>
          rw [hck] at hok
          simp at hok
          subst hok
          obtain ⟨a', ha', hpa', hgv'⟩ :=
            check_candidates_ok_backing env st (signing_context_of env st) gl
              (env.now - 1) cands sched none [] cores' hck c hc
          exact ⟨a', ha', hpa', hgv'⟩

/-- An environment whose backing oracle accepts exactly the vote token 1. -/
def env3 : Env :=
  { parachains := [5], parathread_cores := 0,
    validation_upgrade_delay := 0, validation_upgrade_frequency := 0,
    parent_hash := 100, now := 3,
    check_bitfield_signature := fun _ _ _ => true,
    check_collator_signature := fun _ => true,
    last_code_upgrade := fun _ => none,
    make_persisted_validation_data_hash := fun _ => some 11,
    verify_backing_signature := fun _ _ v => decide (v = 1) }

/-- An assignment of shard 5 to core 2 with validator group 0. -/
def a3 : CoreAssignment := ⟨2, 5, 0, none⟩

/-- Group 0 is the single validator 0. -/
def gl3 : GroupIndex → Option (List ValidatorIndex) :=
  fun g => if g = 0 then some [0] else none

theorem claim_C3_witness :
    (process_candidates env3 gl3 [⟨⟨exDesc, exComm⟩, [2]⟩] [a3] st0).result
        = .error Error.InvalidBacking ∧
    (process_candidates env3 gl3 [⟨⟨exDesc, exComm⟩, []⟩] [a3] st0).result
        = .error Error.InsufficientBacking ∧
    (process_candidates env3 gl3 [⟨⟨exDesc, exComm⟩, [1]⟩] [a3] st0).result
        = .ok [a3.core] :=
  ⟨(claim_C3_backing_quorum env3 st0 gl3 ⟨⟨exDesc, exComm⟩, [2]⟩ a3 [0]
      (by decide) (by decide) (by decide) (by decide) (Or.inl (by decide))
      (by decide) (by decide) (by decide) (by decide)).1
      ⟨2, by decide, by decide⟩,
   ((claim_C3_backing_quorum env3 st0 gl3 ⟨⟨exDesc, exComm⟩, []⟩ a3 [0]
      (by decide) (by decide) (by decide) (by decide) (Or.inl (by decide))
      (by decide) (by decide) (by decide) (by decide)).2.1
      (by decide) (by decide)),
   ((claim_C3_backing_quorum env3 st0 gl3 ⟨⟨exDesc, exComm⟩, [1]⟩ a3 [0]
      (by decide) (by decide) (by decide) (by decide) (Or.inl (by decide))
      (by decide) (by decide) (by decide) (by decide)).2.2.1
      (by decide) (by decide))⟩

/-- C7: when the shard-state manager cannot produce the persisted-validation
data for a matched candidate, the whole `process_candidates` call returns
`Ok` with an empty occupied-cores list rather than an error, no candidate of
the batch is admitted, and no storage is mutated; the silent-empty exit only
arises when some candidate of the batch has no persisted-validation data. -/
theorem claim_C7_missing_pvd (env : Env) (st : State)
    (gl : GroupIndex → Option (List ValidatorIndex)) :
    (∀ (cands : List BackedCandidate) (sched : List CoreAssignment),
      cands.length ≤ sched.length → sched ≠ [] →
      check_candidates env st (signing_context_of env st) gl (env.now - 1)
          cands sched none [] = .emptyEarly →
      process_candidates env gl cands sched st = ⟨.ok [], st, [], []⟩ ∧
      ∃ c ∈ cands, env.make_persisted_validation_data_hash
        c.candidate.descriptor.para_id = none) ∧
    (∀ (cand : BackedCandidate) (a : CoreAssignment)
        (cs : List BackedCandidate) (rest : List CoreAssignment),
      (cand :: cs).length ≤ (a :: rest).length →
      cand.candidate.descriptor.relay_parent = env.parent_hash →
      valid_upgrade_attempt env (env.now - 1) cand = true →
      env.check_collator_signature cand.candidate.descriptor = true →
      cand.candidate.descriptor.para_id = a.para_id →
      (a.required_collator = none ∨
        a.required_collator = some cand.candidate.descriptor.collator) →
      env.make_persisted_validation_data_hash a.para_id = none →
      process_candidates env gl (cand :: cs) (a :: rest) st
        = ⟨.ok [], st, [], []⟩) := by
  constructor
  · intro cands sched hlen hne hck
    exact ⟨process_candidates_of_emptyEarly hlen hne hck,
      check_candidates_emptyEarly_pvd env st _ gl _ cands sched none [] hck⟩
  · intro cand a cs rest hlen h1 h2 h3 h4 h5 hpvd
    have hf : find_assignment env st (signing_context_of env st) gl cand
        none (a :: rest) = .emptyEarly := by
      unfold find_assignment
      rw [if_neg (by simp), if_pos h4,
        if_neg (by rcases h5 with h5 | h5 <;> simp [h5])]
      simp only [hpvd]
    have hck : check_candidates env st (signing_context_of env st) gl
        (env.now - 1) (cand :: cs) (a :: rest) none [] = .emptyEarly := by
      unfold check_candidates
      rw [if_neg (by simp [h1]), if_neg (by simp [h2]), if_neg (by simp [h3])]
      simp only [hf]
    exact process_candidates_of_emptyEarly hlen (by simp) hck

/-- A candidate in the parent context of `env0` for shard 5. -/
def cand7 : BackedCandidate := ⟨⟨⟨5, 0, 7, 11, 13, 17⟩, exComm⟩, []⟩

/-- An assignment of shard 5 to core 0. -/
def a7 : CoreAssignment := ⟨0, 5, 0, none⟩

theorem claim_C7_witness :
    process_candidates env0 gl0 [cand7] [a7] st0 = ⟨.ok [], st0, [], []⟩ :=
  (claim_C7_missing_pvd env0 st0 gl0).2 cand7 a7 [] []
    (by decide) (by decide) (by decide) (by decide) (by decide)
    (Or.inl (by decide)) (by decide)

theorem freed_entry_eq_some {th : Nat} {C : List (ParaId × CandidateCommitments)}
    {r : ParaId × CandidatePendingAvailability} {x : CoreIndex}
    (h : freed_entry th C r = some x) :
    r.2.core = x ∧ th ≤ count_ones r.2.availability_votes ∧
      (mapLookup C r.1).isSome = true := by
  unfold freed_entry at h
  match hm : mapLookup C r.1 with
  | none => rw [hm] at h; cases h
  | some c =>
    rw [hm] at h
    by_cases hth : th ≤ count_ones r.2.availability_votes
    · rw [if_pos hth] at h
      exact ⟨(Option.some_injective _ h), hth, rfl⟩
    · rw [if_neg hth] at h; cases h

theorem not_mem_sweep_freed {th : Nat} {C : List (ParaId × CandidateCommitments)}
    {FR : List (ParaId × CandidatePendingAvailability)}
    {p : ParaId} {pc : CandidatePendingAvailability}
    (hr : (p, pc) ∈ FR)
    (hndc : (FR.map (fun r => r.2.core)).Nodup)
    (hnq : freed_entry th C (p, pc) = none) :
    pc.core ∉ sweep_freed th C FR := by
  intro hmem
  obtain ⟨r, hrm, hre⟩ := List.mem_filterMap.mp hmem
  obtain ⟨hcore, _, _⟩ := freed_entry_eq_some hre
  have heq : r = (p, pc) :=
    List.inj_on_of_nodup_map hndc hrm hr hcore
  rw [heq, hnq] at hre
  cases hre

/-- C1 counterexample: with a lookup that assigns shard 5 to both cores, a
successful `process_bitfields` call leaves a post-folding record of shard 5
that meets the threshold with commitments present, enacts it and frees its
core, yet the shard still has a PendingCandidate afterwards (the second,
below-threshold copy is written back), so the entries are NOT removed. -/
theorem claim_C1_counterexample :
    (process_bitfields exEnv exLookupDup [exBf] exSt).result = .ok [0] ∧
    (5, ⟨0, exDesc, [true, true, false], 0, 1⟩) ∈
      folded_records exEnv exLookupDup [exBf] exSt ∧
    availability_threshold exSt.validators.length ≤
      count_ones [true, true, false] ∧
    mapLookup exSt.pending_commitments 5 = some exComm ∧
    (mapLookup (process_bitfields exEnv exLookupDup [exBf]
        exSt).state.pending_availability 5).isSome = true := by decide

/-- C1 (amended): for every successful `process_bitfields` call whose
post-folding occupied records have pairwise distinct shard ids and pairwise
distinct cores, every record at or above the supermajority threshold whose
shard has a commitments entry gets both entries removed, the new head pushed
to the shard-state manager, and its core in the returned freed list; every
record below the threshold keeps its shard pending with the folded votes and
its core out of the freed list. -/
theorem claim_C1_availability_enactment (env : Env)
    (core_lookup : CoreIndex → Option ParaId)
    (bfs : List SignedAvailabilityBitfield) (st : State)
    (p : ParaId) (pc : CandidatePendingAvailability)
    (hc : bitfields_checks env core_lookup bfs st = none)
    (hndp : ((folded_records env core_lookup bfs st).map Prod.fst).Nodup)
    (hndc : ((folded_records env core_lookup bfs st).map
      (fun r => r.2.core)).Nodup)
    (hr : (p, pc) ∈ folded_records env core_lookup bfs st) :
    (∀ c, availability_threshold st.validators.length ≤
        count_ones pc.availability_votes →
      mapLookup st.pending_commitments p = some c →
      mapLookup (process_bitfields env core_lookup bfs
          st).state.pending_availability p = none ∧
      mapLookup (process_bitfields env core_lookup bfs
          st).state.pending_commitments p = none ∧
      ParasAction.NoteNewHead pc.descriptor.para_id c.head_data
          pc.relay_parent_number ∈
        (process_bitfields env core_lookup bfs st).actions ∧
      ∃ freed, (process_bitfields env core_lookup bfs st).result = .ok freed ∧
        pc.core ∈ freed) ∧
    (count_ones pc.availability_votes <
        availability_threshold st.validators.length →
      mapLookup (process_bitfields env core_lookup bfs
          st).state.pending_availability p = some pc ∧
      ∀ freed, (process_bitfields env core_lookup bfs st).result = .ok freed →
        pc.core ∉ freed) := by
  rw [process_bitfields_of_checks_none hc]
  obtain ⟨hf, he, ha, hin, hout⟩ :=
    sweep_spec env (availability_threshold st.validators.length)
      (folded_records env core_lookup bfs st)
      st.pending_availability st.pending_commitments [] [] [] hndp
  constructor
  · intro c hth hcomm
    obtain ⟨h1, h2⟩ := hin (p, pc) hr
    refine ⟨?_, ?_, ?_, ?_⟩
    · simpa [if_pos hth] using h1
    · simpa [if_pos hth] using h2
    · simp only [ha]
      unfold sweep_actions
      apply List.mem_flatten.mpr
      refine ⟨(enact_candidate env pc.relay_parent_number ⟨pc.descriptor, c⟩).2,
        List.mem_filterMap.mpr ⟨(p, pc), hr, ?_⟩, ?_⟩
      · unfold actions_entry
        simp only [hcomm]
        rw [if_pos hth]
      · unfold enact_candidate
        simp
    · refine ⟨_, rfl, ?_⟩
      simp only [hf, List.nil_append]
      apply List.mem_filterMap.mpr
      refine ⟨(p, pc), hr, ?_⟩
      unfold freed_entry
      simp only [hcomm]
      rw [if_pos hth]
  · intro hth
    obtain ⟨h1, h2⟩ := hin (p, pc) hr
    have hnle := Nat.not_le.mpr hth
    refine ⟨by simpa [if_neg hnle] using h1, ?_⟩
    intro freed hres
    have hfr : freed = sweep_freed (availability_threshold st.validators.length)
        st.pending_commitments (folded_records env core_lookup bfs st) := by
      rw [hf] at hres
      simpa using hres.symm
    rw [hfr]
    apply not_mem_sweep_freed hr hndc
    unfold freed_entry
    cases hm : mapLookup st.pending_commitments p
    · rfl
    · rw [if_neg hnle]

/-- A lookup assigning only core 0, to shard 5. -/
def exLookup1 : CoreIndex → Option ParaId := fun i => if i = 0 then some 5 else none

/-- `exEnv` with a single core. -/
def exEnv1 : Env := { exEnv with parathread_cores := 0 }

/-- A pending record of shard 5 with two votes out of three. -/
def exPendingFull : CandidatePendingAvailability := ⟨0, exDesc, [true, true, false], 0, 1⟩

/-- `exSt` with the two-vote pending record. -/
def exSt1 : State := { exSt with pending_availability := [(5, exPendingFull)] }

theorem claim_C1_witness :
    (mapLookup (process_bitfields exEnv1 exLookup1 []
        exSt1).state.pending_availability 5 = none ∧
     mapLookup (process_bitfields exEnv1 exLookup1 []
        exSt1).state.pending_commitments 5 = none ∧
     ParasAction.NoteNewHead exDesc.para_id exComm.head_data
        exPendingFull.relay_parent_number ∈
       (process_bitfields exEnv1 exLookup1 [] exSt1).actions ∧
     ∃ freed, (process_bitfields exEnv1 exLookup1 [] exSt1).result = .ok freed ∧
       exPendingFull.core ∈ freed) ∧
    mapLookup (process_bitfields exEnv1 exLookup1 []
        exSt).state.pending_availability 5 = some exPending :=
  ⟨(claim_C1_availability_enactment exEnv1 exLookup1 [] exSt1 5 exPendingFull
      (by decide) (by decide) (by decide) (by decide)).1 exComm
      (by decide) (by decide),
   ((claim_C1_availability_enactment exEnv1 exLookup1 [] exSt 5 exPending
      (by decide) (by decide) (by decide) (by decide)).2 (by decide)).1⟩

/-- C4 counterexample: starting from a state satisfying the pending-pair
invariant, a successful `process_bitfields` call whose core lookup assigns
shard 5 to two cores breaks the invariant: the above-threshold copy removes
the commitments while the below-threshold copy re-inserts the pending entry. -/
theorem claim_C4_counterexample :
    SyncInv exSt ∧
    (∃ freed, (process_bitfields exEnv exLookupDup [exBf] exSt).result
      = .ok freed) ∧
    ¬ SyncInv (process_bitfields exEnv exLookupDup [exBf] exSt).state :=
  ⟨fun p => by by_cases h : (5 : Nat) = p <;> simp [exSt, mapLookup, h],
   ⟨[0], by decide⟩,
   fun h => absurd (h 5) (by decide)⟩

/-- C4 (amended): the pending-pair invariant (a shard has a PendingCandidate
entry exactly when it has a PendingCommitments entry) is preserved by
`process_candidates`, `collect_pending`, `force_enact` and the session hook
unconditionally, and by `process_bitfields` provided its core-to-shard
lookup does not produce two occupied records for one shard. -/
theorem claim_C4_sync_pair_invariant (env : Env)
    (core_lookup : CoreIndex → Option ParaId)
    (bfs : List SignedAvailabilityBitfield)
    (gl : GroupIndex → Option (List ValidatorIndex))
    (cands : List BackedCandidate) (sched : List CoreAssignment)
    (pred : CoreIndex → BlockNumber → Bool) (para : ParaId)
    (n : SessionChangeNotification) (st : State) (h : SyncInv st) :
    (((folded_records env core_lookup bfs st).map Prod.fst).Nodup →
      SyncInv (process_bitfields env core_lookup bfs st).state) ∧
    SyncInv (process_candidates env gl cands sched st).state ∧
    SyncInv (collect_pending pred st).2.1 ∧
    SyncInv (force_enact env para st).1 ∧
    SyncInv (initializer_on_new_session n st) := by
  refine ⟨fun hnd => process_bitfields_sync hnd h, ?_, ?_, ?_, fun p => rfl⟩
  · unfold process_candidates
    by_cases hg1 : sched.length < cands.length
    · rw [if_pos hg1]; exact h
    · rw [if_neg hg1]
      by_cases hg2 : sched.isEmpty = true
      · rw [if_pos hg2]; exact h
      · rw [if_neg hg2]
        match hck : check_candidates env st (signing_context_of env st) gl
            (env.now - 1) cands sched none [] with
        | .err e => simp only [hck]; exact h
        | .emptyEarly => simp only [hck]; exact h
        | .ok cores =>
          simp only [hck]
          exact admit_preserves_sync st.validators.length (env.now - 1) env.now
            (cands.zip cores) st [] h
  · unfold collect_pending
    exact foldl_collect_sync _ (st, []) h
  · rw [force_enact_fst]
    exact remove_both_sync para h

theorem claim_C4_witness :
    SyncInv exSt ∧
    SyncInv (process_bitfields exEnv exLookup1 [exBf] exSt).state ∧
    SyncInv (process_candidates exEnv gl0 [] [] exSt).state ∧
    SyncInv (collect_pending (fun _ _ => true) exSt).2.1 ∧
    SyncInv (force_enact exEnv 5 exSt).1 ∧
    SyncInv (initializer_on_new_session ⟨[1], 2⟩ exSt) := by
  have h : SyncInv exSt :=
    fun p => by by_cases hp : (5 : Nat) = p <;> simp [exSt, mapLookup, hp]
  obtain ⟨c1, c2, c3, c4, c5⟩ := claim_C4_sync_pair_invariant exEnv exLookup1
    [exBf] gl0 [] [] (fun _ _ => true) 5 ⟨[1], 2⟩ exSt h
  exact ⟨h, c1 (by decide), c2, c3, c4, c5⟩

/-- Remove the first occurrence of an element from a list. -/
def eraseFirst {α : Type} [DecidableEq α] : List α → α → List α
  | [], _ => []
  | hd :: tl, a => if hd = a then tl else hd :: eraseFirst tl a

theorem filterMap_eq_filterMap_erase {α β : Type} [DecidableEq α]
    {l : List α} {f : α → Option β} {a : α} (hfa : f a = none) :
    l.filterMap f = (eraseFirst l a).filterMap f := by
  induction l with
  | nil => rfl
  | cons hd tl ih =>
    by_cases h : hd = a
    · subst h
      rw [eraseFirst, if_pos rfl]
      simp [List.filterMap_cons, hfa]
    · rw [eraseFirst, if_neg h]
      simp only [List.filterMap_cons]
      cases f hd <;> simp [ih]

/-- C6: a storage desync (a shard with a pending entry but no commitments)
never fails `process_bitfields`: given a batch passing validation, the call
still returns Ok; for distinct record shards and cores, the desynced shard
contributes nothing — its core is not freed and the event and paras-call
logs equal those of the run without that record (enactment is skipped). -/
theorem claim_C6_desync_skip (env : Env)
    (core_lookup : CoreIndex → Option ParaId)
    (bfs : List SignedAvailabilityBitfield) (st : State)
    (p : ParaId) (pc : CandidatePendingAvailability)
    (hc : bitfields_checks env core_lookup bfs st = none)
    (hndc : ((folded_records env core_lookup bfs st).map
      (fun r => r.2.core)).Nodup)
    (hndp : ((folded_records env core_lookup bfs st).map Prod.fst).Nodup)
    (hr : (p, pc) ∈ folded_records env core_lookup bfs st)
    (hmiss : mapLookup st.pending_commitments p = none) :
    (process_bitfields env core_lookup bfs st).result =
      .ok (sweep_freed (availability_threshold st.validators.length)
        st.pending_commitments
        (eraseFirst (folded_records env core_lookup bfs st) (p, pc))) ∧
    (∀ freed, (process_bitfields env core_lookup bfs st).result = .ok freed →
      pc.core ∉ freed) ∧
    (process_bitfields env core_lookup bfs st).events =
      sweep_events env (availability_threshold st.validators.length)
        st.pending_commitments
        (eraseFirst (folded_records env core_lookup bfs st) (p, pc)) ∧
    (process_bitfields env core_lookup bfs st).actions =
      sweep_actions env (availability_threshold st.validators.length)
        st.pending_commitments
        (eraseFirst (folded_records env core_lookup bfs st) (p, pc)) := by
  have hfe : freed_entry (availability_threshold st.validators.length)
      st.pending_commitments (p, pc) = none := by
    unfold freed_entry
    simp only [hmiss]
  have hee : events_entry env (availability_threshold st.validators.length)
      st.pending_commitments (p, pc) = none := by
    unfold events_entry
    simp only [hmiss]
  have hae : actions_entry env (availability_threshold st.validators.length)
      st.pending_commitments (p, pc) = none := by
    unfold actions_entry
    simp only [hmiss]
  rw [process_bitfields_of_checks_none hc]
  obtain ⟨hf, he, ha, hin, hout⟩ :=
    sweep_spec env (availability_threshold st.validators.length)
      (folded_records env core_lookup bfs st)
      st.pending_availability st.pending_commitments [] [] [] hndp
  refine ⟨?_, ?_, ?_, ?_⟩
  · simp only [hf, List.nil_append]
    unfold sweep_freed
    rw [filterMap_eq_filterMap_erase hfe]
  · intro freed hres
    have hfr : freed = sweep_freed (availability_threshold st.validators.length)
        st.pending_commitments (folded_records env core_lookup bfs st) := by
      rw [hf] at hres
      simpa using hres.symm
    rw [hfr]
    exact not_mem_sweep_freed hr hndc hfe
  · simp only [he, List.nil_append]
    unfold sweep_events
    rw [filterMap_eq_filterMap_erase hee]
  · simp only [ha, List.nil_append]
    unfold sweep_actions
    rw [filterMap_eq_filterMap_erase hae]

/-- A desynchronized state: shard 5 pending with two votes, no commitments. -/
def exSt6 : State := { exSt1 with pending_commitments := [] }

theorem claim_C6_witness :
    (process_bitfields exEnv1 exLookup1 [] exSt6).result =
      .ok (sweep_freed (availability_threshold exSt6.validators.length)
        exSt6.pending_commitments
        (eraseFirst (folded_records exEnv1 exLookup1 [] exSt6) (5, exPendingFull))) ∧
    ∀ freed, (process_bitfields exEnv1 exLookup1 [] exSt6).result = .ok freed →
      exPendingFull.core ∉ freed :=
  ⟨(claim_C6_desync_skip exEnv1 exLookup1 [] exSt6 5 exPendingFull
      (by decide) (by decide) (by decide) (by decide) (by decide)).1,
   (claim_C6_desync_skip exEnv1 exLookup1 [] exSt6 5 exPendingFull
      (by decide) (by decide) (by decide) (by decide) (by decide)).2.1⟩

end Inclusion
